import Mathlib

/-!
# headerCheck.rawHeaderHandler

A shallow embedding of `headerCheck/rawHeaderHandler.go`.

Modelling conventions.

* A Go byte slice is a `List Nat`; the nil slice and the empty slice are both `[]`
  (the code never compares a slice with nil).
* A Go pointer that may be nil is an `Option`; a Go `error` is an `Option Error`
  (`none` is the nil error).  A Go function returning `(x, err)` returns a Lean pair.
* The two collaborators (`Proxy`, `marshal.Marshalizer`) are interfaces whose
  implementations live outside the package.  They are modelled as records of
  functions returning `Except Error _`; every call made on them is recorded, in
  order, in a trace of `Event`s, which is how "the number of hops" and "no proxy
  call is made" are expressed.
* The `for` loop of `GetValidatorsInfoPerEpoch` has no static bound, so it is run
  with fuel: one unit per evaluation of the loop head.
* Dereferencing a nil `*block.MetaBlock` is the outcome `nilDereference`.
-/

namespace headerCheck

/-- A Go `[]byte`. -/
abbrev Bytes := List Nat

/-- A Go `error` value: the two sentinel errors of the package, and any error
produced by a collaborator. -/
inductive Error where
  | ErrNilProxy
  | ErrNilMarshaller
  | other (msg : String)
  deriving DecidableEq

/-- The value of `core.MetachainShardId` (`math.MaxUint32`). -/
def MetachainShardId : Nat := 4294967295

/-- Modelled from the spec: the tag `block.PeerBlock` of the enumeration
`block.Type` of the block library, which marks a miniblock carrying validator
records.  Only equality with this tag is ever tested. -/
def PeerBlock : Int := 60

/-- The fields of `block.MiniBlockHeader` read by the handler (`Typ` is the Go field `Type`). -/
structure MiniBlockHeader where
  Hash : Bytes
  Typ : Int
  deriving DecidableEq

/-- The fields of `block.MetaBlock` read by the handler;
`PrevEpochStartHash` stands for `EpochStart.Economics.PrevEpochStartHash`. -/
structure MetaBlock where
  Epoch : Nat
  PrevRandSeed : Bytes
  MiniBlockHeaders : List MiniBlockHeader
  PrevEpochStartHash : Bytes
  deriving DecidableEq

/-- The shard header `block.Header`; the handler only decodes it. -/
structure Header where
  Epoch : Nat
  Nonce : Nat
  PrevRandSeed : Bytes
  deriving DecidableEq

/-- The decoded `block.MiniBlock` (`Typ` is the Go field `Type`). -/
structure MiniBlock where
  TxHashes : List Bytes
  Typ : Int
  deriving DecidableEq

/-- The record `state.ShardValidatorInfo`. -/
structure ShardValidatorInfo where
  PublicKey : Bytes
  ShardId : Nat
  List : String
  Index : Nat
  TempRating : Nat
  deriving DecidableEq

/-- The `Proxy` interface of the package (the context argument carries no data
and is left out). -/
structure Proxy where
  GetRawBlockByHash : Nat → String → Except Error Bytes
  GetRawBlockByNonce : Nat → Nat → Except Error Bytes
  GetRawMiniBlockByHash : Nat → String → Except Error Bytes
  GetNonceAtEpochStart : Nat → Except Error Nat

/-- The interface `marshal.Marshalizer`, one decoder per target shape: `Unmarshal(obj, buff)`
called on a fresh zero object either fails or leaves the decoded value in it. -/
structure Marshalizer where
  UnmarshalMetaBlock : Bytes → Except Error MetaBlock
  UnmarshalHeader : Bytes → Except Error Header
  UnmarshalMiniBlock : Bytes → Except Error MiniBlock
  UnmarshalShardValidatorInfo : Bytes → Except Error ShardValidatorInfo

/-- The struct `rawHeaderHandler`. -/
structure rawHeaderHandler where
  proxy : Proxy
  marshaller : Marshalizer

/-- One call made on a collaborator. -/
inductive Event where
  | GetRawBlockByHash (shardId : Nat) (hash : String)
  | GetRawBlockByNonce (shardId : Nat) (nonce : Nat)
  | GetRawMiniBlockByHash (shardId : Nat) (hash : String)
  | GetNonceAtEpochStart (shardId : Nat)
  | UnmarshalMetaBlock (buff : Bytes)
  | UnmarshalHeader (buff : Bytes)
  | UnmarshalMiniBlock (buff : Bytes)
  | UnmarshalShardValidatorInfo (buff : Bytes)
  deriving DecidableEq

/-- The calls made so far, oldest first. -/
abbrev Trace := List Event

/-- How a run of a function ends. -/
inductive Outcome (α : Type) where
  | returned (a : α)
  | nilDereference
  | outOfFuel
  deriving DecidableEq

/-- One lower-case hexadecimal digit. -/
def hexDigit (n : Nat) : Char :=
  match n % 16 with
  | 0 => '0' | 1 => '1' | 2 => '2' | 3 => '3'
  | 4 => '4' | 5 => '5' | 6 => '6' | 7 => '7'
  | 8 => '8' | 9 => '9' | 10 => 'a' | 11 => 'b'
  | 12 => 'c' | 13 => 'd' | 14 => 'e' | _ => 'f'

/-- The function `hex.EncodeToString`: two digits per byte, high nibble first. -/
def hexEncodeToString (src : Bytes) : String :=
  String.mk (src.flatMap fun b => [hexDigit (b % 256 / 16), hexDigit (b % 256)])

/-- The constructor `NewRawHeaderHandler`; `check.IfNil` holds of an interface
value exactly when it is `none`. -/
def NewRawHeaderHandler (proxy : Option Proxy) (marshaller : Option Marshalizer) :
    (Option rawHeaderHandler × Option Error) × Trace :=
  match proxy with
  | none => ((none, some Error.ErrNilProxy), [])
  | some p =>
    match marshaller with
    | none => ((none, some Error.ErrNilMarshaller), [])
    | some m => ((some { proxy := p, marshaller := m }, none), [])

/-- The method `GetMetaBlockByHash`. -/
def GetMetaBlockByHash (rh : rawHeaderHandler) (hash : String) :
    (Option MetaBlock × Option Error) × Trace :=
  match rh.proxy.GetRawBlockByHash MetachainShardId hash with
  | .error err => ((none, some err), [Event.GetRawBlockByHash MetachainShardId hash])
  | .ok metaBlockBytes =>
    match rh.marshaller.UnmarshalMetaBlock metaBlockBytes with
    | .error err =>
      ((none, some err),
        [Event.GetRawBlockByHash MetachainShardId hash, Event.UnmarshalMetaBlock metaBlockBytes])
    | .ok blockHeader =>
      ((some blockHeader, none),
        [Event.GetRawBlockByHash MetachainShardId hash, Event.UnmarshalMetaBlock metaBlockBytes])

/-- The method `GetShardBlockByHash`. -/
def GetShardBlockByHash (rh : rawHeaderHandler) (shardId : Nat) (hash : String) :
    (Option Header × Option Error) × Trace :=
  match rh.proxy.GetRawBlockByHash shardId hash with
  | .error err => ((none, some err), [Event.GetRawBlockByHash shardId hash])
  | .ok metaBlockBytes =>
    match rh.marshaller.UnmarshalHeader metaBlockBytes with
    | .error err =>
      ((none, some err),
        [Event.GetRawBlockByHash shardId hash, Event.UnmarshalHeader metaBlockBytes])
    | .ok blockHeader =>
      ((some blockHeader, none),
        [Event.GetRawBlockByHash shardId hash, Event.UnmarshalHeader metaBlockBytes])

/-- The method `getLastStartOfEpochMetaBlock`. -/
def getLastStartOfEpochMetaBlock (rh : rawHeaderHandler) :
    (Option MetaBlock × Option Error) × Trace :=
  match rh.proxy.GetNonceAtEpochStart MetachainShardId with
  | .error err => ((none, some err), [Event.GetNonceAtEpochStart MetachainShardId])
  | .ok nonce =>
    match rh.proxy.GetRawBlockByNonce MetachainShardId (nonce % 2 ^ 64) with
    | .error err =>
      ((none, some err),
        [Event.GetNonceAtEpochStart MetachainShardId,
         Event.GetRawBlockByNonce MetachainShardId (nonce % 2 ^ 64)])
    | .ok metaBlockBytes =>
      match rh.marshaller.UnmarshalMetaBlock metaBlockBytes with
      | .error err =>
        ((none, some err),
          [Event.GetNonceAtEpochStart MetachainShardId,
           Event.GetRawBlockByNonce MetachainShardId (nonce % 2 ^ 64),
           Event.UnmarshalMetaBlock metaBlockBytes])
      | .ok blockHeader =>
        ((some blockHeader, none),
          [Event.GetNonceAtEpochStart MetachainShardId,
           Event.GetRawBlockByNonce MetachainShardId (nonce % 2 ^ 64),
           Event.UnmarshalMetaBlock metaBlockBytes])

/-- The generated getter `GetPrevRandSeed`, which accepts a nil receiver. -/
def GetPrevRandSeed (m : Option MetaBlock) : Bytes :=
  match m with
  | none => []
  | some b => b.PrevRandSeed

/-- The generated getter `GetEpoch`, which accepts a nil receiver. -/
def GetEpoch (m : Option MetaBlock) : Nat :=
  match m with
  | none => 0
  | some b => b.Epoch

/-- The inner loop of `getValidatorsInfo`, over the `TxHashes` of one peer
miniblock: each entry is decoded and appended to `allValidatorInfo`. -/
def getValidatorsInfo.txLoop (rh : rawHeaderHandler) :
    List Bytes → List ShardValidatorInfo → Except Error (List ShardValidatorInfo) × Trace
  | [], allValidatorInfo => (.ok allValidatorInfo, [])
  | txHash :: rest, allValidatorInfo =>
    match rh.marshaller.UnmarshalShardValidatorInfo txHash with
    | .error err => (.error err, [Event.UnmarshalShardValidatorInfo txHash])
    | .ok vid =>
      let r := getValidatorsInfo.txLoop rh rest (allValidatorInfo ++ [vid])
      (r.1, Event.UnmarshalShardValidatorInfo txHash :: r.2)

/-- The outer loop of `getValidatorsInfo`, over `metaBlock.MiniBlockHeaders`. -/
def getValidatorsInfo.loop (rh : rawHeaderHandler) :
    List MiniBlockHeader → List ShardValidatorInfo →
      (List ShardValidatorInfo × Option Error) × Trace
  | [], allValidatorInfo => ((allValidatorInfo, none), [])
  | miniBlockHeader :: rest, allValidatorInfo =>
    let hash := hexEncodeToString miniBlockHeader.Hash
    match rh.proxy.GetRawMiniBlockByHash MetachainShardId hash with
    | .error err => (([], some err), [Event.GetRawMiniBlockByHash MetachainShardId hash])
    | .ok miniBlockBytes =>
      match rh.marshaller.UnmarshalMiniBlock miniBlockBytes with
      | .error err =>
        (([], some err),
          [Event.GetRawMiniBlockByHash MetachainShardId hash,
           Event.UnmarshalMiniBlock miniBlockBytes])
      | .ok miniBlock =>
        if miniBlock.Typ ≠ PeerBlock then
          let r := getValidatorsInfo.loop rh rest allValidatorInfo
          (r.1, Event.GetRawMiniBlockByHash MetachainShardId hash ::
            Event.UnmarshalMiniBlock miniBlockBytes :: r.2)
        else
          match getValidatorsInfo.txLoop rh miniBlock.TxHashes allValidatorInfo with
          | (.error err, tr) =>
            (([], some err),
              Event.GetRawMiniBlockByHash MetachainShardId hash ::
                Event.UnmarshalMiniBlock miniBlockBytes :: tr)
          | (.ok all, tr) =>
            let r := getValidatorsInfo.loop rh rest all
            (r.1, Event.GetRawMiniBlockByHash MetachainShardId hash ::
              Event.UnmarshalMiniBlock miniBlockBytes :: (tr ++ r.2))

/-- The method `getValidatorsInfo`; reading `metaBlock.MiniBlockHeaders` of a nil
metablock is a nil dereference. -/
def getValidatorsInfo (rh : rawHeaderHandler) (metaBlock : Option MetaBlock) :
    Outcome (List ShardValidatorInfo × Option Error) × Trace :=
  match metaBlock with
  | none => (.nilDereference, [])
  | some mb =>
    let r := getValidatorsInfo.loop rh mb.MiniBlockHeaders []
    (.returned r.1, r.2)

/-- The `for epoch <= currEpoch` loop of `GetValidatorsInfoPerEpoch`, on the loop
variables `metaBlock`, `randomness`, `currEpoch`.  It ends with `.error err` when
the body returns `nil, nil, err`, and with `.ok (metaBlock, randomness)` when the
loop is left by `break` or by its condition. -/
def GetValidatorsInfoPerEpoch.loop (rh : rawHeaderHandler) (epoch : Nat) :
    Nat → Option MetaBlock → Bytes → Nat →
      Outcome (Except Error (Option MetaBlock × Bytes)) × Trace
  | 0, _, _, _ => (.outOfFuel, [])
  | fuel + 1, metaBlock, randomness, currEpoch =>
    if epoch ≤ currEpoch then
      if epoch = 0 then (.returned (.ok (metaBlock, randomness)), [])
      else if epoch = currEpoch then (.returned (.ok (metaBlock, randomness)), [])
      else
        match metaBlock with
        | none => (.nilDereference, [])
        | some mb =>
          let newHash := hexEncodeToString mb.PrevEpochStartHash
          match GetMetaBlockByHash rh newHash with
          | ((_, some err), tr) => (.returned (.error err), tr)
          | ((none, none), tr) => (.returned (.ok (none, randomness)), tr)
          | ((some next, none), tr) =>
            let r := GetValidatorsInfoPerEpoch.loop rh epoch fuel (some next)
              (GetPrevRandSeed (some next)) (GetEpoch (some next))
            (r.1, tr ++ r.2)
    else (.returned (.ok (metaBlock, randomness)), [])

/-- The statements of `GetValidatorsInfoPerEpoch` after its loop: `current` is
handed to `getValidatorsInfo`, whose error is returned alone and whose list is
returned with `randomness`. -/
def GetValidatorsInfoPerEpoch.afterLoop (rh : rawHeaderHandler) (current : Option MetaBlock)
    (randomness : Bytes) : Outcome (List ShardValidatorInfo × Bytes × Option Error) × Trace :=
  match getValidatorsInfo rh current with
  | (.outOfFuel, tr) => (.outOfFuel, tr)
  | (.nilDereference, tr) => (.nilDereference, tr)
  | (.returned (_, some err), tr) => (.returned ([], [], some err), tr)
  | (.returned (validatorsInfoPerEpoch, none), tr) =>
    (.returned (validatorsInfoPerEpoch, randomness, none), tr)

/-- The method `GetValidatorsInfoPerEpoch`, run with `fuel` evaluations of the
loop head. -/
def GetValidatorsInfoPerEpoch (rh : rawHeaderHandler) (fuel : Nat) (epoch : Nat) :
    Outcome (List ShardValidatorInfo × Bytes × Option Error) × Trace :=
  match getLastStartOfEpochMetaBlock rh with
  | ((_, some err), tr) => (.returned ([], [], some err), tr)
  | ((metaBlock, none), tr) =>
    match GetValidatorsInfoPerEpoch.loop rh epoch fuel metaBlock
        (GetPrevRandSeed metaBlock) (GetEpoch metaBlock) with
    | (.outOfFuel, tr2) => (.outOfFuel, tr ++ tr2)
    | (.nilDereference, tr2) => (.nilDereference, tr ++ tr2)
    | (.returned (.error err), tr2) => (.returned ([], [], some err), tr ++ tr2)
    | (.returned (.ok (current, randomness)), tr2) =>
      let r := GetValidatorsInfoPerEpoch.afterLoop rh current randomness
      (r.1, tr ++ tr2 ++ r.2)

/-- The number of backward hops recorded in a trace: the `GetRawBlockByHash`
requests, of which every call of `GetMetaBlockByHash` makes exactly one. -/
def hops (tr : Trace) : Nat :=
  tr.countP fun ev =>
    match ev with
    | Event.GetRawBlockByHash _ _ => true
    | _ => false


/-- A sample proxy: the metachain holds epoch-start metablocks for the epochs
5, 4, 3, 2, 1, 0; the block of epoch `i` is stored under the hash `[i]` as the
bytes `[100 + i]`, the latest epoch-start block (epoch 5) has nonce 500, and
four miniblocks are stored under the hashes `[48]`, `[49]`, `[50]`, `[51]`. -/
def sampleProxy : Proxy where
  GetNonceAtEpochStart := fun shardId =>
    if shardId = MetachainShardId then .ok 500 else .error (.other "unknown shard")
  GetRawBlockByNonce := fun shardId nonce =>
    if shardId = MetachainShardId ∧ nonce = 500 then .ok [105]
    else .error (.other "block not found")
  GetRawBlockByHash := fun shardId hash =>
    if shardId ≠ MetachainShardId then .error (.other "block not found")
    else if hash = "04" then .ok [104]
    else if hash = "03" then .ok [103]
    else if hash = "02" then .ok [102]
    else if hash = "01" then .ok [101]
    else if hash = "00" then .ok [100]
    else .error (.other "block not found")
  GetRawMiniBlockByHash := fun shardId hash =>
    if shardId ≠ MetachainShardId then .error (.other "miniblock not found")
    else if hash = "30" then .ok [1, 60, 7, 8]
    else if hash = "31" then .ok [1, 0, 9]
    else if hash = "32" then .ok [1, 60, 11]
    else if hash = "33" then .ok [1, 60]
    else .error (.other "miniblock not found")

/-- A sample marshaller: a metablock is the one byte `100 + epoch`, a miniblock
is `1 :: type :: entries` with one byte per entry, a validator record is one
byte (its index). -/
def sampleMarshaller : Marshalizer where
  UnmarshalMetaBlock := fun buff =>
    match buff with
    | [b] =>
      if 100 ≤ b ∧ b ≤ 105 then
        .ok { Epoch := b - 100, PrevRandSeed := [b - 100, 200],
              MiniBlockHeaders :=
                if b = 103 then [⟨[48], 60⟩, ⟨[49], 0⟩, ⟨[50], 60⟩] else [],
              PrevEpochStartHash := [b - 101] }
      else .error (.other "bad metablock")
    | _ => .error (.other "bad metablock")
  UnmarshalHeader := fun buff =>
    match buff with
    | [e, n] => .ok { Epoch := e, Nonce := n, PrevRandSeed := [] }
    | _ => .error (.other "bad header")
  UnmarshalMiniBlock := fun buff =>
    match buff with
    | 1 :: t :: entries => .ok { TxHashes := entries.map fun b => [b], Typ := t }
    | _ => .error (.other "bad miniblock")
  UnmarshalShardValidatorInfo := fun buff =>
    match buff with
    | [i] => .ok { PublicKey := [i], ShardId := 0, List := "eligible", Index := i, TempRating := 50 }
    | _ => .error (.other "bad validator record")

/-- A handler over the sample collaborators. -/
def sampleHandler : rawHeaderHandler := ⟨sampleProxy, sampleMarshaller⟩

/-- The metablocks served by `sampleProxy`, by epoch. -/
def sampleChain (i : Nat) : MetaBlock :=
  { Epoch := i, PrevRandSeed := [i, 200],
    MiniBlockHeaders := if i = 3 then [⟨[48], 60⟩, ⟨[49], 0⟩, ⟨[50], 60⟩] else [],
    PrevEpochStartHash := [i - 1] }

/-- A metablock whose miniblocks are one of another type than `PeerBlock`
(hash `[49]`) and one of type `PeerBlock` that holds no entry (hash `[51]`). -/
def emptyPeerMetaBlock : MetaBlock :=
  { Epoch := 9, PrevRandSeed := [9, 200], MiniBlockHeaders := [⟨[49], 0⟩, ⟨[51], 60⟩],
    PrevEpochStartHash := [8] }

/-- A proxy like `sampleProxy`, except that the epoch-start block of epoch 2
cannot be fetched: the chain is truncated below epoch 3. -/
def truncatedProxy : Proxy :=
  { sampleProxy with
    GetRawBlockByHash := fun shardId hash =>
      if hash = "02" then .error (.other "block not found")
      else sampleProxy.GetRawBlockByHash shardId hash }

/-- A handler over the truncated chain. -/
def truncatedHandler : rawHeaderHandler := ⟨truncatedProxy, sampleMarshaller⟩

/-- The chain of epoch-start metablocks is intact from epoch `e` down to epoch
`lo`: the last epoch-start metablock resolves to `chain e`, `chain i` has epoch
`i`, and the `PrevEpochStartHash` of `chain (i + 1)` resolves and decodes to
`chain i`, for the epochs `i` from `lo` on. -/
def IntactChainDownTo (rh : rawHeaderHandler) (chain : Nat → MetaBlock) (e lo : Nat) : Prop :=
  (getLastStartOfEpochMetaBlock rh).1 = (some (chain e), none) ∧
  (∀ i, i < e + 1 → lo ≤ i → (chain i).Epoch = i) ∧
  (∀ i, i < e → lo ≤ i →
    (GetMetaBlockByHash rh (hexEncodeToString (chain (i + 1)).PrevEpochStartHash)).1
      = (some (chain i), none))

instance (rh : rawHeaderHandler) (chain : Nat → MetaBlock) (e lo : Nat) :
    Decidable (IntactChainDownTo rh chain e lo) := by
  unfold IntactChainDownTo; infer_instance

/-- The chain of epoch-start metablocks is intact: from the last epoch-start
metablock, of epoch `e`, down to epoch 0, every metablock's `PrevEpochStartHash`
resolves and decodes to the epoch-start metablock of the epoch one lower. -/
def IntactChain (rh : rawHeaderHandler) (chain : Nat → MetaBlock) (e : Nat) : Prop :=
  IntactChainDownTo rh chain e 0

instance (rh : rawHeaderHandler) (chain : Nat → MetaBlock) (e : Nat) :
    Decidable (IntactChain rh chain e) := by
  unfold IntactChain; infer_instance

/-- The miniblock a miniblock header refers to: the bytes the proxy serves for
its hex-encoded hash on the metachain shard, decoded by the marshaller. -/
def fetchMiniBlock (rh : rawHeaderHandler) (h : MiniBlockHeader) : Except Error MiniBlock :=
  match rh.proxy.GetRawMiniBlockByHash MetachainShardId (hexEncodeToString h.Hash) with
  | .error err => .error err
  | .ok miniBlockBytes => rh.marshaller.UnmarshalMiniBlock miniBlockBytes

/-- The validator records of one miniblock, as the specification words them: the
decoded entries of a miniblock of type `PeerBlock`, in stored order; nothing for
a miniblock of any other type. -/
def peerRecords (rh : rawHeaderHandler) (mb : MiniBlock) : List ShardValidatorInfo :=
  if mb.Typ = PeerBlock then
    mb.TxHashes.filterMap fun txHash =>
      (rh.marshaller.UnmarshalShardValidatorInfo txHash).toOption
  else []

/-- The validator list of a metablock, as the specification words it: the
concatenation, in `MiniBlockHeaders` order, of the records of each miniblock. -/
def validatorsBySpec (rh : rawHeaderHandler) (m : MetaBlock) : List ShardValidatorInfo :=
  m.MiniBlockHeaders.flatMap fun h =>
    match fetchMiniBlock rh h with
    | .ok mb => peerRecords rh mb
    | .error _ => []

/-- Every miniblock of the list of headers fetches and decodes, and so does
every entry of those of type `PeerBlock`. -/
def allDecode (rh : rawHeaderHandler) (hs : List MiniBlockHeader) : Bool :=
  hs.all fun h =>
    match fetchMiniBlock rh h with
    | .ok mb =>
      mb.Typ ≠ PeerBlock ||
        mb.TxHashes.all fun txHash =>
          (rh.marshaller.UnmarshalShardValidatorInfo txHash).toBool
    | .error _ => false

/-- The error, if any, with which the collaborator of the handler answers a
recorded call. -/
def failure (rh : rawHeaderHandler) : Event → Option Error
  | .GetRawBlockByHash shardId hash =>
    match rh.proxy.GetRawBlockByHash shardId hash with
    | .error err => some err
    | .ok _ => none
  | .GetRawBlockByNonce shardId nonce =>
    match rh.proxy.GetRawBlockByNonce shardId nonce with
    | .error err => some err
    | .ok _ => none
  | .GetRawMiniBlockByHash shardId hash =>
    match rh.proxy.GetRawMiniBlockByHash shardId hash with
    | .error err => some err
    | .ok _ => none
  | .GetNonceAtEpochStart shardId =>
    match rh.proxy.GetNonceAtEpochStart shardId with
    | .error err => some err
    | .ok _ => none
  | .UnmarshalMetaBlock buff =>
    match rh.marshaller.UnmarshalMetaBlock buff with
    | .error err => some err
    | .ok _ => none
  | .UnmarshalHeader buff =>
    match rh.marshaller.UnmarshalHeader buff with
    | .error err => some err
    | .ok _ => none
  | .UnmarshalMiniBlock buff =>
    match rh.marshaller.UnmarshalMiniBlock buff with
    | .error err => some err
    | .ok _ => none
  | .UnmarshalShardValidatorInfo buff =>
    match rh.marshaller.UnmarshalShardValidatorInfo buff with
    | .error err => some err
    | .ok _ => none

/-- A trace and an error value agree: a call of the trace that failed did so
with the error value, and an error value that is not nil is the error of a failed
call of the trace. -/
def Agree (rh : rawHeaderHandler) (tr : Trace) (err : Option Error) : Prop :=
  (∀ ev ∈ tr, ∀ e, failure rh ev = some e → err = some e) ∧
  (∀ e, err = some e → ∃ ev ∈ tr, failure rh ev = some e)

/-- A proxy like `sampleProxy`, except that the hash `[4]`, the predecessor link
of the epoch-5 block, is served as the epoch-5 block itself: following the link
never lowers the epoch. -/
def cyclicProxy : Proxy :=
  { sampleProxy with
    GetRawBlockByHash := fun shardId hash =>
      if hash = "04" then .ok [105]
      else sampleProxy.GetRawBlockByHash shardId hash }

/-- A handler over the cyclic chain. -/
def cyclicHandler : rawHeaderHandler := ⟨cyclicProxy, sampleMarshaller⟩

/-- A proxy like `sampleProxy`, except that the hash `[4]`, the predecessor link
of the epoch-5 block, is served as the epoch-2 block: the epochs 4 and 3 are
skipped. -/
def skippingProxy : Proxy :=
  { sampleProxy with
    GetRawBlockByHash := fun shardId hash =>
      if hash = "04" then .ok [102]
      else sampleProxy.GetRawBlockByHash shardId hash }

/-- A handler over the chain that skips the epochs 4 and 3. -/
def skippingHandler : rawHeaderHandler := ⟨skippingProxy, sampleMarshaller⟩

/-- A metablock whose stored predecessor hash is the two bytes `[48, 52]`, which
read as text are the hexadecimal digits `04`. -/
def hexTextMetaBlock : MetaBlock :=
  { Epoch := 9, PrevRandSeed := [9, 200], MiniBlockHeaders := [],
    PrevEpochStartHash := [48, 52] }

/-- The Go conversion `string(b)` of a byte slice. -/
def bytesToString (b : Bytes) : String :=
  String.mk (b.map fun n => Char.ofNat (n % 256))

/-- The value of one hexadecimal digit, of either case. -/
def hexValue (c : Char) : Option Nat :=
  if 48 ≤ c.toNat ∧ c.toNat ≤ 57 then some (c.toNat - 48)
  else if 97 ≤ c.toNat ∧ c.toNat ≤ 102 then some (c.toNat - 87)
  else if 65 ≤ c.toNat ∧ c.toNat ≤ 70 then some (c.toNat - 55)
  else none

/-- The decoding of a list of hexadecimal digits, two per byte. -/
def hexDecodeChars : List Char → Option Bytes
  | [] => some []
  | [_] => none
  | hi :: lo :: rest =>
    match hexValue hi, hexValue lo, hexDecodeChars rest with
    | some x, some y, some r => some ((16 * x + y) :: r)
    | _, _, _ => none

/-- The function `hex.DecodeString`, the inverse of `hex.EncodeToString`; `none`
stands for its error. -/
def hexDecodeString (s : String) : Option Bytes :=
  hexDecodeChars s.data

/-- The metablock is one the marshaller decodes from some bytes. -/
def Decodes (rh : rawHeaderHandler) (m : MetaBlock) : Prop :=
  ∃ buff, rh.marshaller.UnmarshalMetaBlock buff = .ok m

/-- Every successful hop from a decoded metablock above the target epoch lands on
a metablock of strictly lower epoch. -/
def HopsDecrease (rh : rawHeaderHandler) (epoch : Nat) : Prop :=
  ∀ m next, Decodes rh m → epoch < m.Epoch →
    (GetMetaBlockByHash rh (hexEncodeToString m.PrevEpochStartHash)).1 = (some next, none) →
    next.Epoch < m.Epoch

/-! ## Auxiliary facts on traces and on the single-block resolvers -/

theorem hops_append (a b : Trace) : hops (a ++ b) = hops a + hops b := by
  simp [hops, List.countP_append]

theorem hops_nil : hops [] = 0 := rfl

theorem GetMetaBlockByHash_hops (rh : rawHeaderHandler) (hash : String) :
    hops (GetMetaBlockByHash rh hash).2 = 1 := by
  unfold GetMetaBlockByHash
  cases rh.proxy.GetRawBlockByHash MetachainShardId hash with
  | error err => simp [hops]
  | ok b =>
    dsimp only
    cases rh.marshaller.UnmarshalMetaBlock b with
    | error err => simp [hops]
    | ok m => simp [hops]

theorem GetMetaBlockByHash_cases (rh : rawHeaderHandler) (hash : String) :
    (∃ err, (GetMetaBlockByHash rh hash).1 = (none, some err)) ∨
    (∃ m, (GetMetaBlockByHash rh hash).1 = (some m, none)) := by
  unfold GetMetaBlockByHash
  cases rh.proxy.GetRawBlockByHash MetachainShardId hash with
  | error err => exact Or.inl ⟨err, rfl⟩
  | ok b =>
    dsimp only
    cases rh.marshaller.UnmarshalMetaBlock b with
    | error err => exact Or.inl ⟨err, rfl⟩
    | ok m => exact Or.inr ⟨m, rfl⟩

theorem getLastStartOfEpochMetaBlock_hops (rh : rawHeaderHandler) :
    hops (getLastStartOfEpochMetaBlock rh).2 = 0 := by
  unfold getLastStartOfEpochMetaBlock
  cases rh.proxy.GetNonceAtEpochStart MetachainShardId with
  | error err => simp [hops]
  | ok n =>
    dsimp only
    cases rh.proxy.GetRawBlockByNonce MetachainShardId (n % 2 ^ 64) with
    | error err => simp [hops]
    | ok b =>
      dsimp only
      cases rh.marshaller.UnmarshalMetaBlock b with
      | error err => simp [hops]
      | ok m => simp [hops]

theorem getLastStartOfEpochMetaBlock_cases (rh : rawHeaderHandler) :
    (∃ err, (getLastStartOfEpochMetaBlock rh).1 = (none, some err)) ∨
    (∃ m, (getLastStartOfEpochMetaBlock rh).1 = (some m, none)) := by
  unfold getLastStartOfEpochMetaBlock
  cases rh.proxy.GetNonceAtEpochStart MetachainShardId with
  | error err => exact Or.inl ⟨err, rfl⟩
  | ok n =>
    dsimp only
    cases rh.proxy.GetRawBlockByNonce MetachainShardId (n % 2 ^ 64) with
    | error err => exact Or.inl ⟨err, rfl⟩
    | ok b =>
      dsimp only
      cases rh.marshaller.UnmarshalMetaBlock b with
      | error err => exact Or.inl ⟨err, rfl⟩
      | ok m => exact Or.inr ⟨m, rfl⟩

theorem txLoop_hops (rh : rawHeaderHandler) (txs : List Bytes) :
    ∀ acc, hops (getValidatorsInfo.txLoop rh txs acc).2 = 0 := by
  induction txs with
  | nil => intro acc; simp [getValidatorsInfo.txLoop, hops]
  | cons tx rest ih =>
    intro acc
    unfold getValidatorsInfo.txLoop
    cases rh.marshaller.UnmarshalShardValidatorInfo tx with
    | error err => simp [hops]
    | ok vid =>
      dsimp only
      have := ih (acc ++ [vid])
      simp only [hops] at this ⊢
      simp [this]

theorem getValidatorsInfo_loop_hops (rh : rawHeaderHandler) (hs : List MiniBlockHeader) :
    ∀ acc, hops (getValidatorsInfo.loop rh hs acc).2 = 0 := by
  induction hs with
  | nil => intro acc; simp [getValidatorsInfo.loop, hops]
  | cons h rest ih =>
    intro acc
    unfold getValidatorsInfo.loop
    simp only
    cases rh.proxy.GetRawMiniBlockByHash MetachainShardId (hexEncodeToString h.Hash) with
    | error err => simp [hops]
    | ok b =>
      dsimp only
      cases rh.marshaller.UnmarshalMiniBlock b with
      | error err => simp [hops]
      | ok mb =>
        dsimp only
        by_cases hp : mb.Typ = PeerBlock
        · have ht := txLoop_hops rh mb.TxHashes acc
          rcases hx : getValidatorsInfo.txLoop rh mb.TxHashes acc with ⟨r, tr⟩
          rw [hx] at ht
          cases r with
          | error err =>
            simp only [hops] at ht ⊢
            simp [hp, ht]
          | ok all =>
            dsimp only
            have h2 := ih all
            simp only [hops] at ht h2 ⊢
            simp [hp, ht, h2, List.countP_append]
        · have h2 := ih acc
          simp only [hops] at h2 ⊢
          simp [hp, h2]

theorem getValidatorsInfo_hops (rh : rawHeaderHandler) (m : Option MetaBlock) :
    hops (getValidatorsInfo rh m).2 = 0 := by
  cases m with
  | none => simp [getValidatorsInfo, hops]
  | some mb => simpa [getValidatorsInfo] using getValidatorsInfo_loop_hops rh mb.MiniBlockHeaders []

theorem afterLoop_trace (rh : rawHeaderHandler) (m : Option MetaBlock) (rand : Bytes) :
    (GetValidatorsInfoPerEpoch.afterLoop rh m rand).2 = (getValidatorsInfo rh m).2 := by
  unfold GetValidatorsInfoPerEpoch.afterLoop
  rcases getValidatorsInfo rh m with ⟨o, tr⟩
  cases o with
  | outOfFuel => rfl
  | nilDereference => rfl
  | returned a =>
    obtain ⟨v, err⟩ := a
    cases err <;> rfl

theorem afterLoop_hops (rh : rawHeaderHandler) (m : Option MetaBlock) (rand : Bytes) :
    hops (GetValidatorsInfoPerEpoch.afterLoop rh m rand).2 = 0 := by
  rw [afterLoop_trace]; exact getValidatorsInfo_hops rh m

/-! ## The walk loop -/

/-- The loop is left at once, with its variables unchanged and no call made,
when the target epoch is 0 or is not below the current epoch. -/
theorem loop_stop (rh : rawHeaderHandler) (epoch fuel : Nat) (mb : Option MetaBlock)
    (rand : Bytes) (cur : Nat) (h : epoch = 0 ∨ cur ≤ epoch) :
    GetValidatorsInfoPerEpoch.loop rh epoch (fuel + 1) mb rand cur
      = (.returned (.ok (mb, rand)), []) := by
  unfold GetValidatorsInfoPerEpoch.loop
  rcases h with h | h
  · subst h; simp
  · by_cases h1 : epoch ≤ cur
    · have : epoch = cur := Nat.le_antisymm h1 h
      simp [this]
    · simp [h1]

/-- One successful hop: the loop goes on from the resolved predecessor. -/
theorem loop_hop (rh : rawHeaderHandler) (epoch fuel : Nat) (m next : MetaBlock)
    (rand : Bytes) (cur : Nat) (h0 : epoch ≠ 0) (hlt : epoch < cur)
    (hg : (GetMetaBlockByHash rh (hexEncodeToString m.PrevEpochStartHash)).1
      = (some next, none)) :
    GetValidatorsInfoPerEpoch.loop rh epoch (fuel + 1) (some m) rand cur
      = ((GetValidatorsInfoPerEpoch.loop rh epoch fuel (some next)
            next.PrevRandSeed next.Epoch).1,
         (GetMetaBlockByHash rh (hexEncodeToString m.PrevEpochStartHash)).2 ++
          (GetValidatorsInfoPerEpoch.loop rh epoch fuel (some next)
            next.PrevRandSeed next.Epoch).2) := by
  rw [GetValidatorsInfoPerEpoch.loop]
  rcases hx : GetMetaBlockByHash rh (hexEncodeToString m.PrevEpochStartHash) with ⟨r, tr⟩
  rw [hx] at hg
  simp only at hg
  subst hg
  have hne : epoch ≠ cur := Nat.ne_of_lt hlt
  simp [Nat.le_of_lt hlt, h0, hne, GetPrevRandSeed, GetEpoch, hx]

/-- A failed hop: the loop ends with the error of `GetMetaBlockByHash`. -/
theorem loop_hop_error (rh : rawHeaderHandler) (epoch fuel : Nat) (m : MetaBlock)
    (rand : Bytes) (cur : Nat) (err : Error) (h0 : epoch ≠ 0) (hlt : epoch < cur)
    (hg : (GetMetaBlockByHash rh (hexEncodeToString m.PrevEpochStartHash)).1
      = (none, some err)) :
    GetValidatorsInfoPerEpoch.loop rh epoch (fuel + 1) (some m) rand cur
      = (.returned (.error err),
         (GetMetaBlockByHash rh (hexEncodeToString m.PrevEpochStartHash)).2) := by
  rw [GetValidatorsInfoPerEpoch.loop]
  rcases hx : GetMetaBlockByHash rh (hexEncodeToString m.PrevEpochStartHash) with ⟨r, tr⟩
  rw [hx] at hg
  simp only at hg
  subst hg
  have hne : epoch ≠ cur := Nat.ne_of_lt hlt
  simp [Nat.le_of_lt hlt, h0, hne, hx]

/-- Along an intact chain the loop started `j` epochs above an epoch `c` that is
not below the target epoch `t > 0` makes `j` hops and goes on from the metablock
of epoch `c`. -/
theorem loop_descend (rh : rawHeaderHandler) (chain : Nat → MetaBlock) (e t lo c : Nat)
    (hc : IntactChainDownTo rh chain e lo) (hlo : lo ≤ c) (htc : t ≤ c) (ht : 0 < t) :
    ∀ j, c + j ≤ e → ∃ tr : Trace, hops tr = j ∧ ∀ fuel,
      GetValidatorsInfoPerEpoch.loop rh t (fuel + j) (some (chain (c + j)))
          (chain (c + j)).PrevRandSeed (c + j)
        = ((GetValidatorsInfoPerEpoch.loop rh t fuel (some (chain c))
              (chain c).PrevRandSeed c).1,
           tr ++ (GetValidatorsInfoPerEpoch.loop rh t fuel (some (chain c))
              (chain c).PrevRandSeed c).2) := by
  intro j
  induction j with
  | zero => intro _; exact ⟨[], rfl, fun fuel => rfl⟩
  | succ j ih =>
    intro hle
    obtain ⟨tr, htr, hrec⟩ := ih (by omega)
    have hlink := hc.2.2 (c + j) (by omega) (by omega)
    have hep := hc.2.1 (c + j) (by omega) (by omega)
    refine ⟨(GetMetaBlockByHash rh
      (hexEncodeToString (chain (c + j + 1)).PrevEpochStartHash)).2 ++ tr, ?_, ?_⟩
    · rw [hops_append, GetMetaBlockByHash_hops, htr, Nat.add_comm]
    · intro fuel
      have hstep := loop_hop rh t (fuel + j) (chain (c + j + 1)) (chain (c + j))
        (chain (c + j + 1)).PrevRandSeed (c + j + 1) (by omega) (by omega) hlink
      rw [hep] at hstep
      rw [show c + (j + 1) = c + j + 1 from rfl, show fuel + (j + 1) = fuel + j + 1 from rfl,
        hstep, hrec fuel, List.append_assoc]

/-- Along an intact chain the loop started `j` epochs above a target epoch
`t > 0` makes exactly `j` hops and ends on the metablock of epoch `t`. -/
theorem loop_chain (rh : rawHeaderHandler) (chain : Nat → MetaBlock) (e t lo : Nat)
    (hc : IntactChainDownTo rh chain e lo) (hlo : lo ≤ t) (ht : 0 < t) :
    ∀ j fuel, t + j ≤ e → j < fuel →
      (GetValidatorsInfoPerEpoch.loop rh t fuel (some (chain (t + j)))
          (chain (t + j)).PrevRandSeed (t + j)).1
        = .returned (.ok (some (chain t), (chain t).PrevRandSeed)) ∧
      hops (GetValidatorsInfoPerEpoch.loop rh t fuel (some (chain (t + j)))
          (chain (t + j)).PrevRandSeed (t + j)).2 = j := by
  intro j fuel hle hf
  obtain ⟨tr, htr, hrec⟩ := loop_descend rh chain e t lo t hc hlo (Nat.le_refl t) ht j hle
  obtain ⟨f, rfl⟩ : ∃ f, fuel = f + 1 + j := ⟨fuel - 1 - j, by omega⟩
  rw [hrec (f + 1), loop_stop rh t f _ _ t (Or.inr (Nat.le_refl t))]
  exact ⟨rfl, by simp [htr]⟩

/-- Along an intact chain the loop started `j` epochs above an epoch `c`, above
the target epoch `t > 0`, whose predecessor fails to resolve, makes `j + 1` hops
and ends with the error of the last one. -/
theorem loop_chain_error (rh : rawHeaderHandler) (chain : Nat → MetaBlock) (e t c : Nat)
    (err : Error) (hc : IntactChainDownTo rh chain e c) (htc : t < c) (ht : 0 < t)
    (hfail : (GetMetaBlockByHash rh (hexEncodeToString (chain c).PrevEpochStartHash)).1
      = (none, some err)) :
    ∀ j fuel, c + j ≤ e → j < fuel →
      (GetValidatorsInfoPerEpoch.loop rh t fuel (some (chain (c + j)))
          (chain (c + j)).PrevRandSeed (c + j)).1 = .returned (.error err) ∧
      hops (GetValidatorsInfoPerEpoch.loop rh t fuel (some (chain (c + j)))
          (chain (c + j)).PrevRandSeed (c + j)).2 = j + 1 := by
  intro j fuel hle hf
  obtain ⟨tr, htr, hrec⟩ :=
    loop_descend rh chain e t c c hc (Nat.le_refl c) (Nat.le_of_lt htc) ht j hle
  obtain ⟨f, rfl⟩ : ∃ f, fuel = f + 1 + j := ⟨fuel - 1 - j, by omega⟩
  rw [hrec (f + 1), loop_hop_error rh t f (chain c) _ c err (by omega) htc hfail]
  refine ⟨rfl, ?_⟩
  simp only
  rw [hops_append, GetMetaBlockByHash_hops, htr]

/-- The shape of a run whose first resolution succeeds and whose loop ends
normally. -/
theorem GetValidatorsInfoPerEpoch_of_loop (rh : rawHeaderHandler) (fuel epoch : Nat)
    (M : Option MetaBlock) (cur : Option MetaBlock) (rand : Bytes)
    (hM : (getLastStartOfEpochMetaBlock rh).1 = (M, none))
    (hl : (GetValidatorsInfoPerEpoch.loop rh epoch fuel M (GetPrevRandSeed M) (GetEpoch M)).1
      = .returned (.ok (cur, rand))) :
    GetValidatorsInfoPerEpoch rh fuel epoch
      = ((GetValidatorsInfoPerEpoch.afterLoop rh cur rand).1,
         (getLastStartOfEpochMetaBlock rh).2 ++
         (GetValidatorsInfoPerEpoch.loop rh epoch fuel M (GetPrevRandSeed M) (GetEpoch M)).2 ++
         (getValidatorsInfo rh cur).2) := by
  unfold GetValidatorsInfoPerEpoch
  rcases hx : getLastStartOfEpochMetaBlock rh with ⟨r, tr⟩
  rw [hx] at hM
  simp only at hM
  subst hM
  rcases hy : GetValidatorsInfoPerEpoch.loop rh epoch fuel M (GetPrevRandSeed M) (GetEpoch M)
    with ⟨o, tr2⟩
  rw [hy] at hl
  simp only at hl
  subst hl
  simp [afterLoop_trace, hy]

/-- What `afterLoop` returns on a metablock, by the result of `getValidatorsInfo`. -/
theorem afterLoop_some (rh : rawHeaderHandler) (m : MetaBlock) (rand : Bytes) :
    (∀ v, (getValidatorsInfo rh (some m)).1 = .returned (v, none) →
      (GetValidatorsInfoPerEpoch.afterLoop rh (some m) rand).1 = .returned (v, rand, none)) ∧
    (∀ v err, (getValidatorsInfo rh (some m)).1 = .returned (v, some err) →
      (GetValidatorsInfoPerEpoch.afterLoop rh (some m) rand).1
        = .returned ([], [], some err)) := by
  unfold GetValidatorsInfoPerEpoch.afterLoop
  rcases getValidatorsInfo rh (some m) with ⟨o, tr⟩
  constructor
  · intro v h
    simp only at h
    subst h
    rfl
  · intro v err h
    simp only at h
    subst h
    rfl

/-- The shape of a run whose first resolution succeeds and whose loop ends with
an error. -/
theorem GetValidatorsInfoPerEpoch_of_loop_error (rh : rawHeaderHandler) (fuel epoch : Nat)
    (M : Option MetaBlock) (err : Error)
    (hM : (getLastStartOfEpochMetaBlock rh).1 = (M, none))
    (hl : (GetValidatorsInfoPerEpoch.loop rh epoch fuel M (GetPrevRandSeed M) (GetEpoch M)).1
      = .returned (.error err)) :
    GetValidatorsInfoPerEpoch rh fuel epoch
      = (.returned ([], [], some err),
         (getLastStartOfEpochMetaBlock rh).2 ++
         (GetValidatorsInfoPerEpoch.loop rh epoch fuel M (GetPrevRandSeed M)
            (GetEpoch M)).2) := by
  unfold GetValidatorsInfoPerEpoch
  rcases hx : getLastStartOfEpochMetaBlock rh with ⟨r, tr⟩
  rw [hx] at hM
  simp only at hM
  subst hM
  rcases hy : GetValidatorsInfoPerEpoch.loop rh epoch fuel M (GetPrevRandSeed M) (GetEpoch M)
    with ⟨o, tr2⟩
  rw [hy] at hl
  simp only at hl
  subst hl
  simp [hy]

/-- A run on a chain intact down to the target epoch `e - k > 0`: `k` hops, then
the metablock of the target epoch is handed to `getValidatorsInfo`. -/
theorem GetValidatorsInfoPerEpoch_on_chain (rh : rawHeaderHandler) (chain : Nat → MetaBlock)
    (e lo k fuel : Nat) (hke : k < e) (hlo : lo ≤ e - k)
    (hc : IntactChainDownTo rh chain e lo) (hf : k < fuel) :
    (∃ walk : Trace,
      (GetValidatorsInfoPerEpoch rh fuel (e - k)).2
        = (getLastStartOfEpochMetaBlock rh).2 ++ walk ++
          (getValidatorsInfo rh (some (chain (e - k)))).2 ∧
      hops walk = k) ∧
    hops (GetValidatorsInfoPerEpoch rh fuel (e - k)).2 = k ∧
    (GetValidatorsInfoPerEpoch rh fuel (e - k)).1
      = (GetValidatorsInfoPerEpoch.afterLoop rh (some (chain (e - k)))
          (chain (e - k)).PrevRandSeed).1 := by
  have hte : e - k + k = e := by omega
  have hl := loop_chain rh chain e (e - k) lo hc hlo (by omega) k fuel (by omega) hf
  rw [hte] at hl
  have hep : (chain e).Epoch = e := hc.2.1 e (by omega) (by omega)
  have hrun := GetValidatorsInfoPerEpoch_of_loop rh fuel (e - k) (some (chain e))
    (some (chain (e - k))) (chain (e - k)).PrevRandSeed hc.1
    (by simpa [GetPrevRandSeed, GetEpoch, hep] using hl.1)
  simp only [GetPrevRandSeed, GetEpoch, hep] at hrun
  rw [hrun]
  refine ⟨⟨_, rfl, hl.2⟩, ?_, rfl⟩
  simp only
  rw [hops_append, hops_append, getLastStartOfEpochMetaBlock_hops, hl.2,
    getValidatorsInfo_hops]
  omega

/-! ## C1: the number of hops on an intact chain -/

/-- C1, as stated, fails when the target epoch is 0: on the sample chain of epochs
5 to 0, with k = 5 and e = 5, every hypothesis of the claim holds, yet the request
for epoch e - k = 0 makes no hop at all instead of 5. -/
theorem C1_counterexample :
    0 < 5 ∧ 5 ≤ 5 ∧ IntactChain sampleHandler sampleChain 5 ∧
    (GetValidatorsInfoPerEpoch sampleHandler 10 (5 - 5)).1
      = .returned ([], [5, 200], none) ∧
    hops (GetValidatorsInfoPerEpoch sampleHandler 10 (5 - 5)).2 = 0 ∧
    hops (GetValidatorsInfoPerEpoch sampleHandler 10 (5 - 5)).2 ≠ 5 := by
  decide

/-- C1 (amended): for every k > 0 and every intact chain whose last epoch-start
metablock has epoch e > k (so that the target epoch e - k is not 0),
`GetValidatorsInfoPerEpoch (e - k)`, run with more than k units of fuel, makes
exactly k backward hops: its trace is the resolution of the last epoch-start
metablock, then a walk with k `GetRawBlockByHash` requests, then the calls of
`getValidatorsInfo` on the metablock of epoch e - k; and it returns what the
closing statements return on that metablock and its `PrevRandSeed`. -/
theorem C1_hops_on_intact_chain (rh : rawHeaderHandler) (chain : Nat → MetaBlock)
    (e k fuel : Nat) (hk : 0 < k) (hke : k < e) (hc : IntactChain rh chain e)
    (hf : k < fuel) :
    (∃ walk : Trace,
      (GetValidatorsInfoPerEpoch rh fuel (e - k)).2
        = (getLastStartOfEpochMetaBlock rh).2 ++ walk ++
          (getValidatorsInfo rh (some (chain (e - k)))).2 ∧
      hops walk = k) ∧
    hops (GetValidatorsInfoPerEpoch rh fuel (e - k)).2 = k ∧
    (GetValidatorsInfoPerEpoch rh fuel (e - k)).1
      = (GetValidatorsInfoPerEpoch.afterLoop rh (some (chain (e - k)))
          (chain (e - k)).PrevRandSeed).1 := by
  have hk0 : 0 < k := hk
  exact GetValidatorsInfoPerEpoch_on_chain rh chain e 0 k fuel hke (Nat.zero_le _) hc hf

/-- C1 (amended), at the sample chain: e = 5, k = 2, fuel 3. -/
theorem C1_hops_on_intact_chain_witness :
    hops (GetValidatorsInfoPerEpoch sampleHandler 3 (5 - 2)).2 = 2 :=
  (C1_hops_on_intact_chain sampleHandler sampleChain 5 2 3 (by decide) (by decide)
    (by decide) (by decide)).2.1

/-! ## C3, C4: requests answered without a hop -/

/-- A run whose loop is left at once: no hop is made and the last epoch-start
metablock itself is handed to `getValidatorsInfo`. -/
theorem GetValidatorsInfoPerEpoch_no_hop (rh : rawHeaderHandler) (M : MetaBlock)
    (fuel epoch : Nat)
    (hM : (getLastStartOfEpochMetaBlock rh).1 = (some M, none))
    (hstop : epoch = 0 ∨ M.Epoch ≤ epoch) (hf : 0 < fuel) :
    GetValidatorsInfoPerEpoch rh fuel epoch
      = ((GetValidatorsInfoPerEpoch.afterLoop rh (some M) M.PrevRandSeed).1,
         (getLastStartOfEpochMetaBlock rh).2 ++ (getValidatorsInfo rh (some M)).2) ∧
    hops (GetValidatorsInfoPerEpoch rh fuel epoch).2 = 0 ∧
    (∀ v, (getValidatorsInfo rh (some M)).1 = .returned (v, none) →
      (GetValidatorsInfoPerEpoch rh fuel epoch).1 = .returned (v, M.PrevRandSeed, none)) ∧
    (∀ v err, (getValidatorsInfo rh (some M)).1 = .returned (v, some err) →
      (GetValidatorsInfoPerEpoch rh fuel epoch).1 = .returned ([], [], some err)) := by
  obtain ⟨f, rfl⟩ : ∃ f, fuel = f + 1 := ⟨fuel - 1, by omega⟩
  have hl := loop_stop rh epoch f (some M) M.PrevRandSeed M.Epoch hstop
  have hrun := GetValidatorsInfoPerEpoch_of_loop rh (f + 1) epoch (some M) (some M)
    M.PrevRandSeed hM (by simp [GetPrevRandSeed, GetEpoch, hl])
  simp only [GetPrevRandSeed, GetEpoch, hl, List.append_nil] at hrun
  rw [hrun]
  refine ⟨rfl, ?_, ?_, ?_⟩
  · simp only
    rw [hops_append, getLastStartOfEpochMetaBlock_hops, getValidatorsInfo_hops]
  · exact (afterLoop_some rh M M.PrevRandSeed).1
  · exact (afterLoop_some rh M M.PrevRandSeed).2

/-- C3: whenever the last epoch-start metablock resolves to M, whatever its
epoch, `GetValidatorsInfoPerEpoch 0` (with at least one unit of fuel) makes no
`GetRawBlockByHash` request: its calls are those of the first resolution followed
by those of `getValidatorsInfo M`; it returns the list of `getValidatorsInfo M`
paired with M's `PrevRandSeed`, or the error of `getValidatorsInfo M`. -/
theorem C3_epoch_zero_no_hop (rh : rawHeaderHandler) (M : MetaBlock) (fuel : Nat)
    (hM : (getLastStartOfEpochMetaBlock rh).1 = (some M, none)) (hf : 0 < fuel) :
    (GetValidatorsInfoPerEpoch rh fuel 0).2
      = (getLastStartOfEpochMetaBlock rh).2 ++ (getValidatorsInfo rh (some M)).2 ∧
    hops (GetValidatorsInfoPerEpoch rh fuel 0).2 = 0 ∧
    (∀ ev ∈ (GetValidatorsInfoPerEpoch rh fuel 0).2,
      ∀ shardId hash, ev ≠ Event.GetRawBlockByHash shardId hash) ∧
    (∀ v, (getValidatorsInfo rh (some M)).1 = .returned (v, none) →
      (GetValidatorsInfoPerEpoch rh fuel 0).1 = .returned (v, M.PrevRandSeed, none)) ∧
    (∀ v err, (getValidatorsInfo rh (some M)).1 = .returned (v, some err) →
      (GetValidatorsInfoPerEpoch rh fuel 0).1 = .returned ([], [], some err)) := by
  have h := GetValidatorsInfoPerEpoch_no_hop rh M fuel 0 hM (Or.inl rfl) hf
  refine ⟨by rw [h.1], h.2.1, ?_, h.2.2.1, h.2.2.2⟩
  intro ev hev shardId hash heq
  have h0 := h.2.1
  subst heq
  have : 0 < hops (GetValidatorsInfoPerEpoch rh fuel 0).2 := by
    unfold hops
    exact List.countP_pos_iff.mpr ⟨_, hev, rfl⟩
  omega

/-- C3, at the sample handler, whose last epoch-start metablock has epoch 5. -/
theorem C3_epoch_zero_no_hop_witness :
    (getLastStartOfEpochMetaBlock sampleHandler).1 = (some (sampleChain 5), none) ∧
    hops (GetValidatorsInfoPerEpoch sampleHandler 1 0).2 = 0 ∧
    (GetValidatorsInfoPerEpoch sampleHandler 1 0).1 = .returned ([], [5, 200], none) :=
  ⟨by decide,
   (C3_epoch_zero_no_hop sampleHandler (sampleChain 5) 1 (by decide) (by decide)).2.1,
   (C3_epoch_zero_no_hop sampleHandler (sampleChain 5) 1 (by decide) (by decide)).2.2.2.1
     [] (by decide)⟩

/-- C4: whenever the last epoch-start metablock resolves to M and the target
epoch is M's epoch, `GetValidatorsInfoPerEpoch` (with at least one unit of fuel)
makes no backward hop: its calls are those of the first resolution followed by
those of `getValidatorsInfo M`; it returns the list of `getValidatorsInfo M`
paired with M's `PrevRandSeed`, or the error of `getValidatorsInfo M`. -/
theorem C4_current_epoch_no_hop (rh : rawHeaderHandler) (M : MetaBlock)
    (fuel epoch : Nat)
    (hM : (getLastStartOfEpochMetaBlock rh).1 = (some M, none))
    (he : epoch = M.Epoch) (hf : 0 < fuel) :
    (GetValidatorsInfoPerEpoch rh fuel epoch).2
      = (getLastStartOfEpochMetaBlock rh).2 ++ (getValidatorsInfo rh (some M)).2 ∧
    hops (GetValidatorsInfoPerEpoch rh fuel epoch).2 = 0 ∧
    (∀ v, (getValidatorsInfo rh (some M)).1 = .returned (v, none) →
      (GetValidatorsInfoPerEpoch rh fuel epoch).1 = .returned (v, M.PrevRandSeed, none)) ∧
    (∀ v err, (getValidatorsInfo rh (some M)).1 = .returned (v, some err) →
      (GetValidatorsInfoPerEpoch rh fuel epoch).1 = .returned ([], [], some err)) := by
  have h := GetValidatorsInfoPerEpoch_no_hop rh M fuel epoch hM
    (Or.inr (Nat.le_of_eq he.symm)) hf
  exact ⟨by rw [h.1], h.2.1, h.2.2.1, h.2.2.2⟩

/-- C4, at the sample handler and the epoch 5 of its last epoch-start metablock. -/
theorem C4_current_epoch_no_hop_witness :
    hops (GetValidatorsInfoPerEpoch sampleHandler 1 5).2 = 0 ∧
    (GetValidatorsInfoPerEpoch sampleHandler 1 5).1 = .returned ([], [5, 200], none) :=
  ⟨(C4_current_epoch_no_hop sampleHandler (sampleChain 5) 1 5 (by decide) (by decide)
      (by decide)).2.1,
   (C4_current_epoch_no_hop sampleHandler (sampleChain 5) 1 5 (by decide) (by decide)
      (by decide)).2.2.1 [] (by decide)⟩

/-! ## C6, C7: the validator list of a metablock -/

theorem txLoop_ok (rh : rawHeaderHandler) (txs : List Bytes) :
    ∀ acc, (txs.all fun txHash =>
        (rh.marshaller.UnmarshalShardValidatorInfo txHash).toBool) = true →
      (getValidatorsInfo.txLoop rh txs acc).1
        = .ok (acc ++ txs.filterMap fun txHash =>
            (rh.marshaller.UnmarshalShardValidatorInfo txHash).toOption) := by
  induction txs with
  | nil => intro acc _; simp [getValidatorsInfo.txLoop]
  | cons tx rest ih =>
    intro acc h
    rw [List.all_cons, Bool.and_eq_true] at h
    unfold getValidatorsInfo.txLoop
    cases hx : rh.marshaller.UnmarshalShardValidatorInfo tx with
    | error err => rw [hx] at h; simp [Except.toBool] at h
    | ok vid =>
      simp only
      rw [ih (acc ++ [vid]) h.2]
      simp [List.filterMap_cons, hx, Except.toOption]

theorem txLoop_ok_inv (rh : rawHeaderHandler) (txs : List Bytes) :
    ∀ acc v, (getValidatorsInfo.txLoop rh txs acc).1 = .ok v →
      (txs.all fun txHash =>
        (rh.marshaller.UnmarshalShardValidatorInfo txHash).toBool) = true := by
  induction txs with
  | nil => intro acc v _; rfl
  | cons tx rest ih =>
    intro acc v h
    unfold getValidatorsInfo.txLoop at h
    cases hx : rh.marshaller.UnmarshalShardValidatorInfo tx with
    | error err => rw [hx] at h; simp at h
    | ok vid =>
      rw [hx] at h
      simp only at h
      rw [List.all_cons, Bool.and_eq_true]
      exact ⟨by simp [Except.toBool, hx], ih _ v h⟩

/-- One step of the outer loop on a header whose miniblock fetches and decodes. -/
theorem getValidatorsInfo_loop_cons (rh : rawHeaderHandler) (h : MiniBlockHeader)
    (rest : List MiniBlockHeader) (acc : List ShardValidatorInfo) (mb : MiniBlock)
    (hf : fetchMiniBlock rh h = .ok mb) :
    (getValidatorsInfo.loop rh (h :: rest) acc).1 =
      if mb.Typ ≠ PeerBlock then (getValidatorsInfo.loop rh rest acc).1
      else
        match (getValidatorsInfo.txLoop rh mb.TxHashes acc).1 with
        | .error err => ([], some err)
        | .ok all => (getValidatorsInfo.loop rh rest all).1 := by
  unfold fetchMiniBlock at hf
  rw [getValidatorsInfo.loop]
  cases hx : rh.proxy.GetRawMiniBlockByHash MetachainShardId (hexEncodeToString h.Hash) with
  | error err => rw [hx] at hf; simp at hf
  | ok b =>
    rw [hx] at hf
    simp only at hf
    simp only [hf]
    by_cases hp : mb.Typ = PeerBlock
    · simp only [hp, ne_eq, not_true_eq_false, if_false]
      rcases getValidatorsInfo.txLoop rh mb.TxHashes acc with ⟨r, tr⟩
      cases r <;> rfl
    · simp [hp]

/-- A header whose miniblock does not fetch or decode makes the loop fail. -/
theorem getValidatorsInfo_loop_cons_error (rh : rawHeaderHandler) (h : MiniBlockHeader)
    (rest : List MiniBlockHeader) (acc : List ShardValidatorInfo) (err : Error)
    (hf : fetchMiniBlock rh h = .error err) :
    (getValidatorsInfo.loop rh (h :: rest) acc).1 = ([], some err) := by
  unfold fetchMiniBlock at hf
  rw [getValidatorsInfo.loop]
  cases hx : rh.proxy.GetRawMiniBlockByHash MetachainShardId (hexEncodeToString h.Hash) with
  | error e => rw [hx] at hf; simp at hf; simp [hf]
  | ok b =>
    rw [hx] at hf
    simp only at hf
    simp [hf]

theorem getValidatorsInfo_loop_ok (rh : rawHeaderHandler) (hs : List MiniBlockHeader) :
    ∀ acc, allDecode rh hs = true →
      (getValidatorsInfo.loop rh hs acc).1
        = (acc ++ hs.flatMap (fun h =>
            match fetchMiniBlock rh h with
            | .ok mb => peerRecords rh mb
            | .error _ => []), none) := by
  induction hs with
  | nil => intro acc _; simp [getValidatorsInfo.loop]
  | cons h rest ih =>
    intro acc hd
    unfold allDecode at hd
    rw [List.all_cons, Bool.and_eq_true] at hd
    obtain ⟨h1, h2⟩ := hd
    cases hf : fetchMiniBlock rh h with
    | error err => rw [hf] at h1; simp at h1
    | ok mb =>
      rw [hf] at h1
      rw [getValidatorsInfo_loop_cons rh h rest acc mb hf]
      by_cases hp : mb.Typ = PeerBlock
      · simp only [hp, ne_eq, not_true_eq_false, decide_False, Bool.false_or] at h1
        simp only [hp, ne_eq, not_true_eq_false, if_false]
        rw [txLoop_ok rh mb.TxHashes acc h1]
        simp only
        rw [ih _ h2]
        simp [List.flatMap_cons, hf, peerRecords, hp]
      · simp only [ne_eq, hp, not_false_eq_true, if_true]
        rw [ih _ h2]
        simp [List.flatMap_cons, hf, peerRecords, hp]

theorem getValidatorsInfo_loop_ok_inv (rh : rawHeaderHandler) (hs : List MiniBlockHeader) :
    ∀ acc v, (getValidatorsInfo.loop rh hs acc).1 = (v, none) → allDecode rh hs = true := by
  induction hs with
  | nil => intro acc v _; rfl
  | cons h rest ih =>
    intro acc v hv
    unfold allDecode
    rw [List.all_cons, Bool.and_eq_true]
    cases hf : fetchMiniBlock rh h with
    | error err =>
      rw [getValidatorsInfo_loop_cons_error rh h rest acc err hf] at hv
      simp at hv
    | ok mb =>
      rw [getValidatorsInfo_loop_cons rh h rest acc mb hf] at hv
      by_cases hp : mb.Typ = PeerBlock
      · simp only [hp, ne_eq, not_true_eq_false, if_false] at hv
        cases hx : (getValidatorsInfo.txLoop rh mb.TxHashes acc).1 with
        | error err => rw [hx] at hv; simp at hv
        | ok all =>
          rw [hx] at hv
          simp only at hv
          exact ⟨by simpa [hp] using txLoop_ok_inv rh mb.TxHashes acc all hx, ih all v hv⟩
      · simp only [ne_eq, hp, not_false_eq_true, if_true] at hv
        exact ⟨by simp [hp], ih acc v hv⟩

/-- An error of the outer loop comes with the nil list. -/
theorem getValidatorsInfo_loop_error_nil (rh : rawHeaderHandler) (hs : List MiniBlockHeader) :
    ∀ acc v err, (getValidatorsInfo.loop rh hs acc).1 = (v, some err) → v = [] := by
  induction hs with
  | nil => intro acc v err h; simp [getValidatorsInfo.loop] at h
  | cons h rest ih =>
    intro acc v err hv
    cases hf : fetchMiniBlock rh h with
    | error e =>
      rw [getValidatorsInfo_loop_cons_error rh h rest acc e hf] at hv
      simp only [Prod.mk.injEq] at hv
      exact hv.1.symm
    | ok mb =>
      rw [getValidatorsInfo_loop_cons rh h rest acc mb hf] at hv
      by_cases hp : mb.Typ = PeerBlock
      · simp only [hp, ne_eq, not_true_eq_false, if_false] at hv
        cases hx : (getValidatorsInfo.txLoop rh mb.TxHashes acc).1 with
        | error e =>
          rw [hx] at hv
          simp only [Prod.mk.injEq] at hv
          exact hv.1.symm
        | ok all =>
          rw [hx] at hv
          exact ih all v err hv
      · simp only [ne_eq, hp, not_false_eq_true, if_true] at hv
        exact ih acc v err hv

/-- C6: for every metablock whose miniblocks all fetch and decode (the entries
of the peer miniblocks included), `getValidatorsInfo` returns, with a nil error,
the concatenation, in `MiniBlockHeaders` order, of the decoded records of each
miniblock of type `PeerBlock`, each miniblock's records in the order of its
`TxHashes`; a miniblock of any other type contributes nothing. -/
theorem C6_validators_in_order (rh : rawHeaderHandler) (m : MetaBlock)
    (hd : allDecode rh m.MiniBlockHeaders = true) :
    (getValidatorsInfo rh (some m)).1 = .returned (validatorsBySpec rh m, none) := by
  have h := getValidatorsInfo_loop_ok rh m.MiniBlockHeaders [] hd
  simp only [List.nil_append] at h
  simp [getValidatorsInfo, validatorsBySpec, h]

/-- C6, at the epoch-3 metablock of the sample chain: a peer miniblock with the
records 7 and 8, a miniblock of another type holding an entry 9, and a peer
miniblock with the record 11. -/
theorem C6_validators_in_order_witness :
    allDecode sampleHandler (sampleChain 3).MiniBlockHeaders = true ∧
    validatorsBySpec sampleHandler (sampleChain 3)
      = [⟨[7], 0, "eligible", 7, 50⟩, ⟨[8], 0, "eligible", 8, 50⟩,
         ⟨[11], 0, "eligible", 11, 50⟩] ∧
    (getValidatorsInfo sampleHandler (some (sampleChain 3))).1
      = .returned (validatorsBySpec sampleHandler (sampleChain 3), none) :=
  ⟨by decide, by decide, C6_validators_in_order sampleHandler (sampleChain 3) (by decide)⟩

/-- The records of a miniblock whose entries all decode are as many as its
entries: there is none exactly when a peer miniblock has no entry. -/
theorem peerRecords_eq_nil_iff (rh : rawHeaderHandler) (mb : MiniBlock)
    (hd : (mb.Typ ≠ PeerBlock ||
        mb.TxHashes.all fun txHash =>
          (rh.marshaller.UnmarshalShardValidatorInfo txHash).toBool) = true) :
    peerRecords rh mb = [] ↔ (mb.Typ = PeerBlock → mb.TxHashes = []) := by
  unfold peerRecords
  by_cases hp : mb.Typ = PeerBlock
  · simp only [hp, ne_eq, not_true_eq_false, decide_False, Bool.false_or] at hd
    simp only [hp, if_true, forall_true_left]
    constructor
    · intro hnil
      cases hl : mb.TxHashes with
      | nil => rfl
      | cons tx rest =>
        rw [hl] at hd hnil
        rw [List.all_cons, Bool.and_eq_true] at hd
        cases hx : rh.marshaller.UnmarshalShardValidatorInfo tx with
        | error err => rw [hx] at hd; simp [Except.toBool] at hd
        | ok vid => simp [List.filterMap_cons, hx, Except.toOption] at hnil
    · intro hnil
      rw [hnil]
      rfl
  · simp [hp]

/-- C7, as stated, fails: the sample handler serves, under the hash `[51]`, a
miniblock of type `PeerBlock` with no entry; on a metablock holding that
miniblock, `getValidatorsInfo` succeeds with the empty list although a miniblock
of type `PeerBlock` is present. -/
theorem C7_counterexample :
    (getValidatorsInfo sampleHandler (some emptyPeerMetaBlock)).1 = .returned ([], none) ∧
    (⟨[51], 60⟩ : MiniBlockHeader) ∈ emptyPeerMetaBlock.MiniBlockHeaders ∧
    fetchMiniBlock sampleHandler ⟨[51], 60⟩ = .ok { TxHashes := [], Typ := 60 } ∧
    ({ TxHashes := [], Typ := 60 } : MiniBlock).Typ = PeerBlock :=
  ⟨by decide, by decide, rfl, rfl⟩

/-- C7 (amended): for every metablock on which `getValidatorsInfo` succeeds, the
returned list is empty if and only if every miniblock of type `PeerBlock` of the
metablock has no `TxHashes` entry (which is so, in particular, when no miniblock
has type `PeerBlock`). -/
theorem C7_empty_iff_no_peer_entry (rh : rawHeaderHandler) (m : MetaBlock)
    (v : List ShardValidatorInfo)
    (hs : (getValidatorsInfo rh (some m)).1 = .returned (v, none)) :
    (v = [] ↔ ∀ h ∈ m.MiniBlockHeaders, ∀ mb, fetchMiniBlock rh h = .ok mb →
      mb.Typ = PeerBlock → mb.TxHashes = []) ∧
    ((∀ h ∈ m.MiniBlockHeaders, ∀ mb, fetchMiniBlock rh h = .ok mb →
      mb.Typ ≠ PeerBlock) → v = []) := by
  have hl : (getValidatorsInfo.loop rh m.MiniBlockHeaders []).1 = (v, none) := by
    simpa [getValidatorsInfo] using hs
  have hd := getValidatorsInfo_loop_ok_inv rh m.MiniBlockHeaders [] v hl
  have hspec := getValidatorsInfo_loop_ok rh m.MiniBlockHeaders [] hd
  rw [hl, List.nil_append] at hspec
  have hv : v = m.MiniBlockHeaders.flatMap (fun h =>
      match fetchMiniBlock rh h with
      | .ok mb => peerRecords rh mb
      | .error _ => []) := by
    simpa using hspec
  have hall : ∀ h ∈ m.MiniBlockHeaders,
      (match fetchMiniBlock rh h with
        | .ok mb =>
          mb.Typ ≠ PeerBlock ||
            mb.TxHashes.all fun txHash =>
              (rh.marshaller.UnmarshalShardValidatorInfo txHash).toBool
        | .error _ => false) = true := by
    unfold allDecode at hd
    exact List.all_eq_true.mp hd
  have hiff : v = [] ↔ ∀ h ∈ m.MiniBlockHeaders, ∀ mb, fetchMiniBlock rh h = .ok mb →
      mb.Typ = PeerBlock → mb.TxHashes = [] := by
    rw [hv, List.flatMap_eq_nil_iff]
    constructor
    · intro hnil h hh mb hf hp
      have h1 := hnil h hh
      have h2 := hall h hh
      rw [hf] at h1 h2
      exact (peerRecords_eq_nil_iff rh mb h2).mp h1 hp
    · intro hempty h hh
      have h2 := hall h hh
      cases hf : fetchMiniBlock rh h with
      | error err => rfl
      | ok mb =>
        rw [hf] at h2
        exact (peerRecords_eq_nil_iff rh mb h2).mpr (hempty h hh mb hf)
  refine ⟨hiff, ?_⟩
  intro hno
  exact hiff.mpr fun h hh mb hf hp => absurd hp (hno h hh mb hf)

/-- C7 (amended), at a metablock with a miniblock of another type and a peer
miniblock without entries: the list is empty, and so is every peer miniblock. -/
theorem C7_empty_iff_no_peer_entry_witness :
    (getValidatorsInfo sampleHandler (some emptyPeerMetaBlock)).1 = .returned ([], none) ∧
    (∀ h ∈ emptyPeerMetaBlock.MiniBlockHeaders,
      ∀ mb, fetchMiniBlock sampleHandler h = .ok mb → mb.Typ = PeerBlock → mb.TxHashes = []) :=
  ⟨by decide,
   (C7_empty_iff_no_peer_entry sampleHandler emptyPeerMetaBlock [] (by decide)).1.mp rfl⟩

/-! ## C2: the worked example, epochs 5 to 0 and target epoch 3 -/

/-- C2: given a handler whose proxy and marshaller serve an intact chain of
epoch-start metablocks for the epochs 5, 4, 3, 2, 1, 0, the epoch-5 block being
the last epoch-start block, and serve the miniblocks of the epoch-3 metablock,
`GetValidatorsInfoPerEpoch 3` (with more than 2 units of fuel) makes exactly 2
backward hops and returns, with a nil error, the validator records decoded from
the miniblocks of type `PeerBlock` of the epoch-3 metablock, together with the
`PrevRandSeed` of the epoch-3 metablock. -/
theorem C2_epoch_three_of_five (rh : rawHeaderHandler) (chain : Nat → MetaBlock)
    (fuel : Nat) (hc : IntactChain rh chain 5)
    (hd : allDecode rh (chain 3).MiniBlockHeaders = true) (hf : 2 < fuel) :
    hops (GetValidatorsInfoPerEpoch rh fuel 3).2 = 2 ∧
    (GetValidatorsInfoPerEpoch rh fuel 3).1
      = .returned (validatorsBySpec rh (chain 3), (chain 3).PrevRandSeed, none) := by
  have h := GetValidatorsInfoPerEpoch_on_chain rh chain 5 0 2 fuel (by decide)
    (Nat.zero_le _) hc hf
  have hv : (getValidatorsInfo rh (some (chain 3))).1
      = .returned (validatorsBySpec rh (chain 3), none) := by
    have hl := getValidatorsInfo_loop_ok rh (chain 3).MiniBlockHeaders [] hd
    simp only [List.nil_append] at hl
    simp [getValidatorsInfo, validatorsBySpec, hl]
  refine ⟨h.2.1, ?_⟩
  rw [show (3 : Nat) = 5 - 2 from rfl, h.2.2]
  exact (afterLoop_some rh (chain (5 - 2)) (chain (5 - 2)).PrevRandSeed).1 _ hv

/-- C2, at the sample handler: the three records of the two peer miniblocks of
the epoch-3 metablock come back with its `PrevRandSeed`, after 2 hops. -/
theorem C2_epoch_three_of_five_witness :
    IntactChain sampleHandler sampleChain 5 ∧
    validatorsBySpec sampleHandler (sampleChain 3)
      = [⟨[7], 0, "eligible", 7, 50⟩, ⟨[8], 0, "eligible", 8, 50⟩,
         ⟨[11], 0, "eligible", 11, 50⟩] ∧
    hops (GetValidatorsInfoPerEpoch sampleHandler 3 3).2 = 2 ∧
    (GetValidatorsInfoPerEpoch sampleHandler 3 3).1
      = .returned (validatorsBySpec sampleHandler (sampleChain 3),
          (sampleChain 3).PrevRandSeed, none) :=
  ⟨by decide, by decide,
   C2_epoch_three_of_five sampleHandler sampleChain 3 (by decide) (by decide) (by decide)⟩

/-! ## C5: a truncated chain -/

/-- C5, as stated, fails: on the truncated sample chain the metablocks of the
epochs 5, 4, 3 resolve and the predecessor of the epoch-3 metablock does not; a
request for epoch 1 does not return the validators and `PrevRandSeed` of the
epoch-3 metablock with a nil error, it returns the error of the failed
resolution, with a nil list and nil randomness. -/
theorem C5_counterexample :
    IntactChainDownTo truncatedHandler sampleChain 5 3 ∧
    (GetMetaBlockByHash truncatedHandler
      (hexEncodeToString (sampleChain 3).PrevEpochStartHash)).1
        = (none, some (.other "block not found")) ∧
    (GetValidatorsInfoPerEpoch truncatedHandler 10 1).1
      = .returned ([], [], some (.other "block not found")) ∧
    (GetValidatorsInfoPerEpoch truncatedHandler 10 1).1
      ≠ .returned (validatorsBySpec truncatedHandler (sampleChain 3),
          (sampleChain 3).PrevRandSeed, none) := by
  decide

/-- C5 (amended): if the predecessor chain is truncated before reaching the
target epoch t > 0 (the chain is intact from the last epoch-start metablock, of
epoch e, down to an epoch c > t, and resolving the `PrevEpochStartHash` of the
metablock of epoch c fails with the error err), `GetValidatorsInfoPerEpoch t`
(with more than e - c units of fuel) stops at that hop, the (e - c + 1)-th, and
returns err with a nil validator list and nil randomness. -/
theorem C5_truncated_chain_error (rh : rawHeaderHandler) (chain : Nat → MetaBlock)
    (e c t fuel : Nat) (err : Error) (ht : 0 < t) (htc : t < c) (hce : c ≤ e)
    (hc : IntactChainDownTo rh chain e c)
    (hfail : (GetMetaBlockByHash rh (hexEncodeToString (chain c).PrevEpochStartHash)).1
      = (none, some err))
    (hf : e - c < fuel) :
    (GetValidatorsInfoPerEpoch rh fuel t).1 = .returned ([], [], some err) ∧
    hops (GetValidatorsInfoPerEpoch rh fuel t).2 = e - c + 1 := by
  have hl := loop_chain_error rh chain e t c err hc htc ht hfail (e - c) fuel (by omega) hf
  have hce2 : c + (e - c) = e := by omega
  rw [hce2] at hl
  have hep : (chain e).Epoch = e := hc.2.1 e (by omega) hce
  have hrun := GetValidatorsInfoPerEpoch_of_loop_error rh fuel t (some (chain e)) err hc.1
    (by simpa [GetPrevRandSeed, GetEpoch, hep] using hl.1)
  simp only [GetPrevRandSeed, GetEpoch, hep] at hrun
  rw [hrun]
  refine ⟨rfl, ?_⟩
  simp only
  rw [hops_append, getLastStartOfEpochMetaBlock_hops, hl.2]
  omega

/-- C5 (amended), at the truncated sample chain: e = 5, c = 3, target epoch 1. -/
theorem C5_truncated_chain_error_witness :
    IntactChainDownTo truncatedHandler sampleChain 5 3 ∧
    (GetValidatorsInfoPerEpoch truncatedHandler 3 1).1
      = .returned ([], [], some (.other "block not found")) ∧
    hops (GetValidatorsInfoPerEpoch truncatedHandler 3 1).2 = 5 - 3 + 1 :=
  ⟨by decide,
   C5_truncated_chain_error truncatedHandler sampleChain 5 3 1 3 (.other "block not found")
     (by decide) (by decide) (by decide) (by decide) (by decide) (by decide)⟩

/-! ## C8: errors are returned unchanged and alone -/

theorem Agree_nil (rh : rawHeaderHandler) : Agree rh [] none :=
  ⟨fun _ h => by simp at h, fun _ h => by simp at h⟩

/-- Calls without failure put in front of a trace do not change what it agrees with. -/
theorem Agree_append_ok (rh : rawHeaderHandler) (tr1 tr2 : Trace) (err : Option Error)
    (h1 : Agree rh tr1 none) (h2 : Agree rh tr2 err) : Agree rh (tr1 ++ tr2) err := by
  constructor
  · intro ev hev e hf
    rcases List.mem_append.mp hev with h | h
    · have := h1.1 ev h e hf
      simp at this
    · exact h2.1 ev h e hf
  · intro e he
    obtain ⟨ev, hev, hf⟩ := h2.2 e he
    exact ⟨ev, List.mem_append.mpr (Or.inr hev), hf⟩

theorem GetMetaBlockByHash_agree (rh : rawHeaderHandler) (hash : String) :
    Agree rh (GetMetaBlockByHash rh hash).2 (GetMetaBlockByHash rh hash).1.2 := by
  unfold GetMetaBlockByHash
  cases h1 : rh.proxy.GetRawBlockByHash MetachainShardId hash with
  | error err => simp [Agree, failure, h1]
  | ok b =>
    dsimp only
    cases h2 : rh.marshaller.UnmarshalMetaBlock b with
    | error err => simp [Agree, failure, h1, h2]
    | ok m => simp [Agree, failure, h1, h2]

theorem getLastStartOfEpochMetaBlock_agree (rh : rawHeaderHandler) :
    Agree rh (getLastStartOfEpochMetaBlock rh).2 (getLastStartOfEpochMetaBlock rh).1.2 := by
  unfold getLastStartOfEpochMetaBlock
  cases h1 : rh.proxy.GetNonceAtEpochStart MetachainShardId with
  | error err => simp [Agree, failure, h1]
  | ok n =>
    dsimp only
    cases h2 : rh.proxy.GetRawBlockByNonce MetachainShardId (n % 2 ^ 64) with
    | error err =>
      have h2n := h2
      simp only [Nat.reducePow] at h2n
      simp [Agree, failure, h1, h2n]
    | ok b =>
      dsimp only
      have h2n := h2
      simp only [Nat.reducePow] at h2n
      cases h3 : rh.marshaller.UnmarshalMetaBlock b with
      | error err => simp [Agree, failure, h1, h2n, h3]
      | ok m => simp [Agree, failure, h1, h2n, h3]

theorem txLoop_agree (rh : rawHeaderHandler) (txs : List Bytes) :
    ∀ acc, Agree rh (getValidatorsInfo.txLoop rh txs acc).2
      (match (getValidatorsInfo.txLoop rh txs acc).1 with
        | .error err => some err
        | .ok _ => none) := by
  induction txs with
  | nil => intro acc; simp [getValidatorsInfo.txLoop, Agree]
  | cons tx rest ih =>
    intro acc
    unfold getValidatorsInfo.txLoop
    cases hx : rh.marshaller.UnmarshalShardValidatorInfo tx with
    | error err => simp [Agree, failure, hx]
    | ok vid =>
      dsimp only
      have h1 : Agree rh [Event.UnmarshalShardValidatorInfo tx] none := by
        simp [Agree, failure, hx]
      exact Agree_append_ok rh [Event.UnmarshalShardValidatorInfo tx] _ _ h1 (ih (acc ++ [vid]))

theorem getValidatorsInfo_loop_agree (rh : rawHeaderHandler) (hs : List MiniBlockHeader) :
    ∀ acc, Agree rh (getValidatorsInfo.loop rh hs acc).2
      (getValidatorsInfo.loop rh hs acc).1.2 := by
  induction hs with
  | nil => intro acc; simp [getValidatorsInfo.loop, Agree]
  | cons h rest ih =>
    intro acc
    unfold getValidatorsInfo.loop
    dsimp only
    cases h1 : rh.proxy.GetRawMiniBlockByHash MetachainShardId (hexEncodeToString h.Hash) with
    | error err => simp [Agree, failure, h1]
    | ok b =>
      dsimp only
      cases h2 : rh.marshaller.UnmarshalMiniBlock b with
      | error err => simp [Agree, failure, h1, h2]
      | ok mb =>
        dsimp only
        have h0 : Agree rh [Event.GetRawMiniBlockByHash MetachainShardId
            (hexEncodeToString h.Hash), Event.UnmarshalMiniBlock b] none := by
          simp [Agree, failure, h1, h2]
        by_cases hp : mb.Typ = PeerBlock
        · simp only [hp, ne_eq, not_true_eq_false, if_false]
          have ht := txLoop_agree rh mb.TxHashes acc
          rcases hx : getValidatorsInfo.txLoop rh mb.TxHashes acc with ⟨r, tr⟩
          rw [hx] at ht
          cases r with
          | error err =>
            exact Agree_append_ok rh [_, _] tr _ h0 ht
          | ok all =>
            dsimp only at ht ⊢
            exact Agree_append_ok rh [_, _] _ _ h0 (Agree_append_ok rh tr _ _ ht (ih all))
        · simp only [ne_eq, hp, not_false_eq_true, if_true]
          exact Agree_append_ok rh [_, _] _ _ h0 (ih acc)

theorem loop_agree (rh : rawHeaderHandler) (epoch : Nat) :
    ∀ fuel mb rand cur,
      Agree rh (GetValidatorsInfoPerEpoch.loop rh epoch fuel mb rand cur).2
        (match (GetValidatorsInfoPerEpoch.loop rh epoch fuel mb rand cur).1 with
          | .returned (.error err) => some err
          | _ => none) := by
  intro fuel
  induction fuel with
  | zero => intro mb rand cur; simp [GetValidatorsInfoPerEpoch.loop, Agree]
  | succ fuel ih =>
    intro mb rand cur
    by_cases hstop : epoch = 0 ∨ cur ≤ epoch
    · rw [loop_stop rh epoch fuel mb rand cur hstop]
      exact Agree_nil rh
    · have h0 : epoch ≠ 0 := fun h => hstop (Or.inl h)
      have hlt : epoch < cur := by omega
      have hne : epoch ≠ cur := Nat.ne_of_lt hlt
      cases mb with
      | none =>
        simp [GetValidatorsInfoPerEpoch.loop, Nat.le_of_lt hlt, h0, hne, Agree]
      | some m =>
        rcases GetMetaBlockByHash_cases rh (hexEncodeToString m.PrevEpochStartHash)
          with ⟨err, he⟩ | ⟨next, hn⟩
        · rw [loop_hop_error rh epoch fuel m rand cur err h0 hlt he]
          have hg := GetMetaBlockByHash_agree rh (hexEncodeToString m.PrevEpochStartHash)
          rw [he] at hg
          exact hg
        · rw [loop_hop rh epoch fuel m next rand cur h0 hlt hn]
          have hg := GetMetaBlockByHash_agree rh (hexEncodeToString m.PrevEpochStartHash)
          rw [hn] at hg
          exact Agree_append_ok rh _ _ _ hg (ih (some next) next.PrevRandSeed next.Epoch)

theorem afterLoop_agree (rh : rawHeaderHandler) (cur : Option MetaBlock) (rand : Bytes) :
    Agree rh (GetValidatorsInfoPerEpoch.afterLoop rh cur rand).2
      (match (GetValidatorsInfoPerEpoch.afterLoop rh cur rand).1 with
        | .returned (_, _, some err) => some err
        | _ => none) := by
  cases cur with
  | none => simp [GetValidatorsInfoPerEpoch.afterLoop, getValidatorsInfo, Agree]
  | some m =>
    have hl := getValidatorsInfo_loop_agree rh m.MiniBlockHeaders []
    simp only [GetValidatorsInfoPerEpoch.afterLoop, getValidatorsInfo]
    generalize getValidatorsInfo.loop rh m.MiniBlockHeaders [] = x at hl ⊢
    obtain ⟨⟨v, err⟩, tr⟩ := x
    cases err <;> exact hl

/-- An error of `afterLoop` comes with a nil list and nil randomness. -/
theorem afterLoop_error_nil (rh : rawHeaderHandler) (cur : Option MetaBlock) (rand : Bytes)
    (v : List ShardValidatorInfo) (r : Bytes) (e : Error)
    (h : (GetValidatorsInfoPerEpoch.afterLoop rh cur rand).1 = .returned (v, r, some e)) :
    v = [] ∧ r = [] := by
  unfold GetValidatorsInfoPerEpoch.afterLoop at h
  generalize getValidatorsInfo rh cur = x at h
  obtain ⟨o, tr⟩ := x
  cases o with
  | outOfFuel => simp at h
  | nilDereference => simp at h
  | returned a =>
    obtain ⟨w, err⟩ := a
    cases err with
    | none => simp at h
    | some err =>
      simp only [Outcome.returned.injEq, Prod.mk.injEq] at h
      exact ⟨h.1.symm, h.2.1.symm⟩

/-- The trace of a run agrees with its error, and an error comes with a nil
list and nil randomness. -/
theorem GetValidatorsInfoPerEpoch_agree (rh : rawHeaderHandler) (fuel epoch : Nat) :
    Agree rh (GetValidatorsInfoPerEpoch rh fuel epoch).2
      (match (GetValidatorsInfoPerEpoch rh fuel epoch).1 with
        | .returned (_, _, some err) => some err
        | _ => none) ∧
    ∀ v r e, (GetValidatorsInfoPerEpoch rh fuel epoch).1 = .returned (v, r, some e) →
      v = [] ∧ r = [] := by
  have hL := getLastStartOfEpochMetaBlock_agree rh
  unfold GetValidatorsInfoPerEpoch
  generalize getLastStartOfEpochMetaBlock rh = x at hL ⊢
  obtain ⟨⟨M, e0⟩, tr⟩ := x
  cases e0 with
  | some err =>
    refine ⟨hL, ?_⟩
    intro v r e h
    simp only [Outcome.returned.injEq, Prod.mk.injEq] at h
    exact ⟨h.1.symm, h.2.1.symm⟩
  | none =>
    dsimp only at hL ⊢
    have hloop := loop_agree rh epoch fuel M (GetPrevRandSeed M) (GetEpoch M)
    generalize GetValidatorsInfoPerEpoch.loop rh epoch fuel M (GetPrevRandSeed M)
      (GetEpoch M) = y at hloop ⊢
    obtain ⟨o, tr2⟩ := y
    cases o with
    | outOfFuel => exact ⟨Agree_append_ok rh _ _ _ hL hloop, fun v r e h => by simp at h⟩
    | nilDereference => exact ⟨Agree_append_ok rh _ _ _ hL hloop, fun v r e h => by simp at h⟩
    | returned x =>
      cases x with
      | error err =>
        refine ⟨Agree_append_ok rh _ _ _ hL hloop, ?_⟩
        intro v r e h
        simp only [Outcome.returned.injEq, Prod.mk.injEq] at h
        exact ⟨h.1.symm, h.2.1.symm⟩
      | ok st =>
        obtain ⟨cur, rand⟩ := st
        dsimp only at hloop ⊢
        refine ⟨?_, fun v r e h => afterLoop_error_nil rh cur rand v r e h⟩
        rw [List.append_assoc]
        exact Agree_append_ok rh _ _ _ hL
          (Agree_append_ok rh _ _ _ hloop (afterLoop_agree rh cur rand))

/-- C8: in every run of `GetValidatorsInfoPerEpoch`, whatever the fuel, a call
on the proxy or on the marshaller that was made and failed with the error e (the
nonce query, a block fetch, a metablock decode, a miniblock fetch or decode of
any type, a validator record decode) makes the operation return exactly e with a
nil validator list and nil randomness; and whenever the operation returns an
error, the list and the randomness are nil and the error is that of a failed
call of the run. -/
theorem C8_errors_propagate_unchanged (rh : rawHeaderHandler) (fuel epoch : Nat) :
    (∀ ev ∈ (GetValidatorsInfoPerEpoch rh fuel epoch).2, ∀ e, failure rh ev = some e →
      (GetValidatorsInfoPerEpoch rh fuel epoch).1 = .returned ([], [], some e)) ∧
    (∀ v r e, (GetValidatorsInfoPerEpoch rh fuel epoch).1 = .returned (v, r, some e) →
      v = [] ∧ r = [] ∧
      ∃ ev ∈ (GetValidatorsInfoPerEpoch rh fuel epoch).2, failure rh ev = some e) := by
  obtain ⟨hag, hnil⟩ := GetValidatorsInfoPerEpoch_agree rh fuel epoch
  constructor
  · intro ev hev e hf
    have h := hag.1 ev hev e hf
    rcases hx : (GetValidatorsInfoPerEpoch rh fuel epoch).1 with a | _ | _
    · obtain ⟨v, r, err⟩ := a
      rw [hx] at h
      cases err with
      | none => simp at h
      | some e2 =>
        simp only [Option.some.injEq] at h
        subst h
        obtain ⟨hv, hr⟩ := hnil v r e2 hx
        rw [hv, hr]
    · rw [hx] at h; simp at h
    · rw [hx] at h; simp at h
  · intro v r e h
    obtain ⟨hv, hr⟩ := hnil v r e h
    refine ⟨hv, hr, ?_⟩
    apply hag.2 e
    rw [h]

/-- C8, at the truncated sample chain: the fetch of the epoch-2 block is made
and fails, and its error is what a request for epoch 1 returns, alone. -/
theorem C8_errors_propagate_unchanged_witness :
    Event.GetRawBlockByHash MetachainShardId "02"
      ∈ (GetValidatorsInfoPerEpoch truncatedHandler 10 1).2 ∧
    failure truncatedHandler (Event.GetRawBlockByHash MetachainShardId "02")
      = some (.other "block not found") ∧
    (GetValidatorsInfoPerEpoch truncatedHandler 10 1).1
      = .returned ([], [], some (.other "block not found")) :=
  ⟨by decide, by decide,
   (C8_errors_propagate_unchanged truncatedHandler 10 1).1
     (Event.GetRawBlockByHash MetachainShardId "02") (by decide)
     (.other "block not found") (by decide)⟩

/-! ## C9: the constructor -/

/-- C9: `NewRawHeaderHandler` fails with `ErrNilProxy` whenever the proxy is nil,
whatever the marshaller is; fails with `ErrNilMarshaller` when the proxy is not
nil and the marshaller is nil; returns no handler in either failure; otherwise
succeeds, with a nil error, with a handler holding exactly the given proxy and
marshaller; and it puts no request to the proxy in any case. -/
theorem C9_constructor (proxy : Option Proxy) (marshaller : Option Marshalizer) :
    (proxy = none →
      (NewRawHeaderHandler proxy marshaller).1 = (none, some Error.ErrNilProxy)) ∧
    (proxy ≠ none → marshaller = none →
      (NewRawHeaderHandler proxy marshaller).1 = (none, some Error.ErrNilMarshaller)) ∧
    (∀ p m, proxy = some p → marshaller = some m →
      (NewRawHeaderHandler proxy marshaller).1 = (some ⟨p, m⟩, none) ∧
      ∀ rh, (NewRawHeaderHandler proxy marshaller).1.1 = some rh →
        rh.proxy = p ∧ rh.marshaller = m) ∧
    ((NewRawHeaderHandler proxy marshaller).1.2 ≠ none →
      (NewRawHeaderHandler proxy marshaller).1.1 = none) ∧
    (NewRawHeaderHandler proxy marshaller).2 = [] := by
  cases proxy with
  | none => simp [NewRawHeaderHandler]
  | some p =>
    cases marshaller with
    | none => simp [NewRawHeaderHandler]
    | some m =>
      simp only [NewRawHeaderHandler]
      refine ⟨by simp, by simp, ?_, by simp, trivial⟩
      intro p2 m2 hp hm
      simp only [Option.some.injEq] at hp hm
      subst hp hm
      refine ⟨rfl, ?_⟩
      intro rh hrh
      simp only [Option.some.injEq] at hrh
      subst hrh
      exact ⟨rfl, rfl⟩

/-- C9, at the sample collaborators: both present, and each one missing. -/
theorem C9_constructor_witness :
    (NewRawHeaderHandler none (some sampleMarshaller)).1 = (none, some Error.ErrNilProxy) ∧
    (NewRawHeaderHandler (some sampleProxy) none).1 = (none, some Error.ErrNilMarshaller) ∧
    (NewRawHeaderHandler (some sampleProxy) (some sampleMarshaller)).1
      = (some ⟨sampleProxy, sampleMarshaller⟩, none) :=
  ⟨(C9_constructor none (some sampleMarshaller)).1 rfl,
   (C9_constructor (some sampleProxy) none).2.1 (by simp) rfl,
   ((C9_constructor (some sampleProxy) (some sampleMarshaller)).2.2.1
      sampleProxy sampleMarshaller rfl rfl).1⟩

/-! ## C10: resolving one metablock -/

/-- C10: for every hash, `GetMetaBlockByHash` puts exactly one request to the
proxy, `GetRawBlockByHash` with the metachain shard id and that hash, followed by
one decode of the served bytes when the request succeeds; if the request fails it
returns the error of the proxy and no block; if the decode fails it returns the
error of the marshaller and no block; otherwise it returns, with a nil error,
exactly the metablock the marshaller decodes from the served bytes. So when the
served bytes are `encode h` for an encoder the marshaller inverts at the header
h, the result is h, field for field. -/
theorem C10_resolve_metablock (rh : rawHeaderHandler) (hash : String) :
    (GetMetaBlockByHash rh hash).2
      = Event.GetRawBlockByHash MetachainShardId hash ::
        (match rh.proxy.GetRawBlockByHash MetachainShardId hash with
          | .error _ => []
          | .ok served => [Event.UnmarshalMetaBlock served]) ∧
    hops (GetMetaBlockByHash rh hash).2 = 1 ∧
    (∀ err, rh.proxy.GetRawBlockByHash MetachainShardId hash = .error err →
      (GetMetaBlockByHash rh hash).1 = (none, some err)) ∧
    (∀ served err, rh.proxy.GetRawBlockByHash MetachainShardId hash = .ok served →
      rh.marshaller.UnmarshalMetaBlock served = .error err →
      (GetMetaBlockByHash rh hash).1 = (none, some err)) ∧
    (∀ served m, rh.proxy.GetRawBlockByHash MetachainShardId hash = .ok served →
      rh.marshaller.UnmarshalMetaBlock served = .ok m →
      (GetMetaBlockByHash rh hash).1 = (some m, none)) ∧
    (∀ (encode : MetaBlock → Bytes) (h : MetaBlock),
      rh.marshaller.UnmarshalMetaBlock (encode h) = .ok h →
      rh.proxy.GetRawBlockByHash MetachainShardId hash = .ok (encode h) →
      ∃ m, (GetMetaBlockByHash rh hash).1 = (some m, none) ∧
        m.Epoch = h.Epoch ∧ m.PrevRandSeed = h.PrevRandSeed ∧
        m.MiniBlockHeaders = h.MiniBlockHeaders ∧
        m.PrevEpochStartHash = h.PrevEpochStartHash) := by
  refine ⟨?_, GetMetaBlockByHash_hops rh hash, ?_, ?_, ?_, ?_⟩
  · unfold GetMetaBlockByHash
    cases h1 : rh.proxy.GetRawBlockByHash MetachainShardId hash with
    | error err => rfl
    | ok b =>
      dsimp only
      cases h2 : rh.marshaller.UnmarshalMetaBlock b <;> rfl
  · intro err h1
    simp [GetMetaBlockByHash, h1]
  · intro served err h1 h2
    simp [GetMetaBlockByHash, h1, h2]
  · intro served m h1 h2
    simp [GetMetaBlockByHash, h1, h2]
  · intro encode h h2 h1
    exact ⟨h, by simp [GetMetaBlockByHash, h1, h2], rfl, rfl, rfl, rfl⟩

/-- C10, at the sample handler: the hash `[3]` is served as the bytes `[103]`,
which decode to the epoch-3 metablock; the hash `[9]` is not served. -/
theorem C10_resolve_metablock_witness :
    (GetMetaBlockByHash sampleHandler "03").1 = (some (sampleChain 3), none) ∧
    (GetMetaBlockByHash sampleHandler "09").1
      = (none, some (.other "block not found")) :=
  ⟨(C10_resolve_metablock sampleHandler "03").2.2.2.2.1 [103] (sampleChain 3) rfl rfl,
   (C10_resolve_metablock sampleHandler "09").2.2.1 (.other "block not found") rfl⟩

/-! ## C11: resolving one shard header -/

/-- C11: for every shard id and hash, `GetShardBlockByHash` has the contract of
`GetMetaBlockByHash` with the shard id of the caller in place of the metachain
shard id and the shard `Header` in place of the metablock: it puts exactly one
request to the proxy, `GetRawBlockByHash` with that shard id and hash, followed
by one decode of the served bytes into a `Header` when the request succeeds; the
error of the proxy and the error of the marshaller are each returned unchanged
with no header; otherwise the decoded header is returned with a nil error. -/
theorem C11_resolve_shard_header (rh : rawHeaderHandler) (shardId : Nat) (hash : String) :
    (GetShardBlockByHash rh shardId hash).2
      = Event.GetRawBlockByHash shardId hash ::
        (match rh.proxy.GetRawBlockByHash shardId hash with
          | .error _ => []
          | .ok served => [Event.UnmarshalHeader served]) ∧
    hops (GetShardBlockByHash rh shardId hash).2 = 1 ∧
    (∀ err, rh.proxy.GetRawBlockByHash shardId hash = .error err →
      (GetShardBlockByHash rh shardId hash).1 = (none, some err)) ∧
    (∀ served err, rh.proxy.GetRawBlockByHash shardId hash = .ok served →
      rh.marshaller.UnmarshalHeader served = .error err →
      (GetShardBlockByHash rh shardId hash).1 = (none, some err)) ∧
    (∀ served h, rh.proxy.GetRawBlockByHash shardId hash = .ok served →
      rh.marshaller.UnmarshalHeader served = .ok h →
      (GetShardBlockByHash rh shardId hash).1 = (some h, none)) ∧
    (GetMetaBlockByHash rh hash).2.head?
      = (GetShardBlockByHash rh MetachainShardId hash).2.head? := by
  refine ⟨?_, ?_, ?_, ?_, ?_, ?_⟩
  · unfold GetShardBlockByHash
    cases h1 : rh.proxy.GetRawBlockByHash shardId hash with
    | error err => rfl
    | ok b =>
      dsimp only
      cases h2 : rh.marshaller.UnmarshalHeader b <;> rfl
  · unfold GetShardBlockByHash
    cases h1 : rh.proxy.GetRawBlockByHash shardId hash with
    | error err => simp [hops]
    | ok b =>
      dsimp only
      cases h2 : rh.marshaller.UnmarshalHeader b <;> simp [hops]
  · intro err h1
    simp [GetShardBlockByHash, h1]
  · intro served err h1 h2
    simp [GetShardBlockByHash, h1, h2]
  · intro served h h1 h2
    simp [GetShardBlockByHash, h1, h2]
  · unfold GetShardBlockByHash GetMetaBlockByHash
    cases h1 : rh.proxy.GetRawBlockByHash MetachainShardId hash with
    | error err => rfl
    | ok b =>
      dsimp only
      cases h2 : rh.marshaller.UnmarshalHeader b <;>
        cases h3 : rh.marshaller.UnmarshalMetaBlock b <;> rfl

/-- C11, at the sample handler: on shard 1 no block is served; on the metachain
shard the hash `[3]` is served as the one byte `[103]`, which is no shard header
for the sample marshaller. -/
theorem C11_resolve_shard_header_witness :
    (GetShardBlockByHash sampleHandler 1 "03").1
      = (none, some (.other "block not found")) ∧
    (GetShardBlockByHash sampleHandler MetachainShardId "03").1
      = (none, some (.other "bad header")) :=
  ⟨(C11_resolve_shard_header sampleHandler 1 "03").2.2.1 (.other "block not found") rfl,
   (C11_resolve_shard_header sampleHandler MetachainShardId "03").2.2.2.1 [103]
     (.other "bad header") rfl rfl⟩

/-! ## C14: the last epoch-start metablock -/

/-- C14: `getLastStartOfEpochMetaBlock` first asks the proxy for the epoch-start
nonce of the metachain shard, then fetches the raw block at exactly that nonce
(a 64-bit value) on the metachain shard, then decodes the served bytes and
returns the decoded metablock; if the nonce query fails no block is fetched, if
the fetch fails nothing is decoded, and the error of whichever of the three
steps fails is returned unchanged with no block. -/
theorem C14_last_epoch_start_metablock (rh : rawHeaderHandler) :
    (∀ err, rh.proxy.GetNonceAtEpochStart MetachainShardId = .error err →
      getLastStartOfEpochMetaBlock rh
        = ((none, some err), [Event.GetNonceAtEpochStart MetachainShardId])) ∧
    (∀ nonce err, rh.proxy.GetNonceAtEpochStart MetachainShardId = .ok nonce →
      nonce < 2 ^ 64 →
      rh.proxy.GetRawBlockByNonce MetachainShardId nonce = .error err →
      getLastStartOfEpochMetaBlock rh
        = ((none, some err),
           [Event.GetNonceAtEpochStart MetachainShardId,
            Event.GetRawBlockByNonce MetachainShardId nonce])) ∧
    (∀ nonce served err, rh.proxy.GetNonceAtEpochStart MetachainShardId = .ok nonce →
      nonce < 2 ^ 64 →
      rh.proxy.GetRawBlockByNonce MetachainShardId nonce = .ok served →
      rh.marshaller.UnmarshalMetaBlock served = .error err →
      getLastStartOfEpochMetaBlock rh
        = ((none, some err),
           [Event.GetNonceAtEpochStart MetachainShardId,
            Event.GetRawBlockByNonce MetachainShardId nonce,
            Event.UnmarshalMetaBlock served])) ∧
    (∀ nonce served m, rh.proxy.GetNonceAtEpochStart MetachainShardId = .ok nonce →
      nonce < 2 ^ 64 →
      rh.proxy.GetRawBlockByNonce MetachainShardId nonce = .ok served →
      rh.marshaller.UnmarshalMetaBlock served = .ok m →
      getLastStartOfEpochMetaBlock rh
        = ((some m, none),
           [Event.GetNonceAtEpochStart MetachainShardId,
            Event.GetRawBlockByNonce MetachainShardId nonce,
            Event.UnmarshalMetaBlock served])) ∧
    (getLastStartOfEpochMetaBlock rh).2.head?
      = some (Event.GetNonceAtEpochStart MetachainShardId) := by
  refine ⟨?_, ?_, ?_, ?_, ?_⟩
  · intro err h1
    simp [getLastStartOfEpochMetaBlock, h1]
  · intro nonce err h1 hlt h2
    have hmod : nonce % 2 ^ 64 = nonce := Nat.mod_eq_of_lt hlt
    unfold getLastStartOfEpochMetaBlock
    rw [h1]
    dsimp only
    rw [hmod, h2]
  · intro nonce served err h1 hlt h2 h3
    have hmod : nonce % 2 ^ 64 = nonce := Nat.mod_eq_of_lt hlt
    unfold getLastStartOfEpochMetaBlock
    rw [h1]
    dsimp only
    rw [hmod, h2]
    dsimp only
    rw [h3]
  · intro nonce served m h1 hlt h2 h3
    have hmod : nonce % 2 ^ 64 = nonce := Nat.mod_eq_of_lt hlt
    unfold getLastStartOfEpochMetaBlock
    rw [h1]
    dsimp only
    rw [hmod, h2]
    dsimp only
    rw [h3]
  · unfold getLastStartOfEpochMetaBlock
    cases h1 : rh.proxy.GetNonceAtEpochStart MetachainShardId with
    | error err => rfl
    | ok n =>
      dsimp only
      cases h2 : rh.proxy.GetRawBlockByNonce MetachainShardId (n % 2 ^ 64) with
      | error err => rfl
      | ok b =>
        dsimp only
        cases h3 : rh.marshaller.UnmarshalMetaBlock b <;> rfl

/-- C14, at the sample handler: the epoch-start nonce is 500 and the block at
that nonce decodes to the epoch-5 metablock. -/
theorem C14_last_epoch_start_metablock_witness :
    getLastStartOfEpochMetaBlock sampleHandler
      = ((some (sampleChain 5), none),
         [Event.GetNonceAtEpochStart MetachainShardId,
          Event.GetRawBlockByNonce MetachainShardId 500,
          Event.UnmarshalMetaBlock [105]]) :=
  (C14_last_epoch_start_metablock sampleHandler).2.2.2.1 500 [105] (sampleChain 5)
    rfl (by decide) rfl rfl

/-! ## C16: a target epoch that does not exist yet -/

/-- C16: whenever the last epoch-start metablock resolves to M and the target
epoch is strictly greater than M's epoch, `GetValidatorsInfoPerEpoch` (with at
least one unit of fuel) makes no backward hop and signals no error of its own:
it is the very run of a request for M's own epoch, which returns the list of
`getValidatorsInfo M` paired with M's `PrevRandSeed` (or the error of
`getValidatorsInfo M`). -/
theorem C16_future_epoch (rh : rawHeaderHandler) (M : MetaBlock) (fuel epoch : Nat)
    (hM : (getLastStartOfEpochMetaBlock rh).1 = (some M, none))
    (he : M.Epoch < epoch) (hf : 0 < fuel) :
    hops (GetValidatorsInfoPerEpoch rh fuel epoch).2 = 0 ∧
    GetValidatorsInfoPerEpoch rh fuel epoch = GetValidatorsInfoPerEpoch rh fuel M.Epoch ∧
    (∀ v, (getValidatorsInfo rh (some M)).1 = .returned (v, none) →
      (GetValidatorsInfoPerEpoch rh fuel epoch).1 = .returned (v, M.PrevRandSeed, none)) ∧
    (∀ v err, (getValidatorsInfo rh (some M)).1 = .returned (v, some err) →
      (GetValidatorsInfoPerEpoch rh fuel epoch).1 = .returned ([], [], some err)) := by
  have h := GetValidatorsInfoPerEpoch_no_hop rh M fuel epoch hM
    (Or.inr (Nat.le_of_lt he)) hf
  have h2 := GetValidatorsInfoPerEpoch_no_hop rh M fuel M.Epoch hM
    (Or.inr (Nat.le_refl _)) hf
  exact ⟨h.2.1, by rw [h.1, h2.1], h.2.2.1, h.2.2.2⟩

/-- C16, at the sample handler, whose last epoch-start metablock has epoch 5: a
request for epoch 8 is answered as a request for epoch 5. -/
theorem C16_future_epoch_witness :
    hops (GetValidatorsInfoPerEpoch sampleHandler 1 8).2 = 0 ∧
    GetValidatorsInfoPerEpoch sampleHandler 1 8 = GetValidatorsInfoPerEpoch sampleHandler 1 5 ∧
    (GetValidatorsInfoPerEpoch sampleHandler 1 8).1 = .returned ([], [5, 200], none) :=
  ⟨(C16_future_epoch sampleHandler (sampleChain 5) 1 8 (by decide) (by decide)
      (by decide)).1,
   (C16_future_epoch sampleHandler (sampleChain 5) 1 8 (by decide) (by decide)
      (by decide)).2.1,
   (C16_future_epoch sampleHandler (sampleChain 5) 1 8 (by decide) (by decide)
      (by decide)).2.2.1 [] (by decide)⟩

/-! ## The loop variables: never nil, in step, and not above the target -/

/-- From a metablock with its own seed and epoch, the loop never dereferences
nil, and when it ends normally its metablock is not nil, its randomness is the
`PrevRandSeed` of that metablock, and the epoch of that metablock is not above a
target epoch other than 0. -/
theorem loop_invariant (rh : rawHeaderHandler) (epoch : Nat) :
    ∀ fuel m,
      (GetValidatorsInfoPerEpoch.loop rh epoch fuel (some m) m.PrevRandSeed m.Epoch).1
        ≠ .nilDereference ∧
      ∀ c r,
        (GetValidatorsInfoPerEpoch.loop rh epoch fuel (some m) m.PrevRandSeed m.Epoch).1
          = .returned (.ok (c, r)) →
        ∃ last, c = some last ∧ r = last.PrevRandSeed ∧ (epoch ≠ 0 → last.Epoch ≤ epoch) := by
  intro fuel
  induction fuel with
  | zero =>
    intro m
    simp [GetValidatorsInfoPerEpoch.loop]
  | succ fuel ih =>
    intro m
    by_cases hstop : epoch = 0 ∨ m.Epoch ≤ epoch
    · rw [loop_stop rh epoch fuel (some m) m.PrevRandSeed m.Epoch hstop]
      refine ⟨by simp, ?_⟩
      intro c r h
      simp only [Outcome.returned.injEq, Except.ok.injEq, Prod.mk.injEq] at h
      refine ⟨m, h.1.symm, h.2.symm, ?_⟩
      intro h0
      rcases hstop with h1 | h1
      · exact absurd h1 h0
      · exact h1
    · have h0 : epoch ≠ 0 := fun h => hstop (Or.inl h)
      have hlt : epoch < m.Epoch := by omega
      rcases GetMetaBlockByHash_cases rh (hexEncodeToString m.PrevEpochStartHash)
        with ⟨err, he⟩ | ⟨next, hn⟩
      · rw [loop_hop_error rh epoch fuel m m.PrevRandSeed m.Epoch err h0 hlt he]
        exact ⟨by simp, fun c r h => by simp at h⟩
      · rw [loop_hop rh epoch fuel m next m.PrevRandSeed m.Epoch h0 hlt hn]
        exact ih next

/-- Whatever the loop variables, provided the metablock is not nil: the loop
never dereferences nil and never ends normally on a nil metablock. -/
theorem loop_never_nil (rh : rawHeaderHandler) (epoch fuel : Nat) (m : MetaBlock)
    (rand : Bytes) (cur : Nat) :
    (GetValidatorsInfoPerEpoch.loop rh epoch fuel (some m) rand cur).1 ≠ .nilDereference ∧
    ∀ r, (GetValidatorsInfoPerEpoch.loop rh epoch fuel (some m) rand cur).1
      ≠ .returned (.ok (none, r)) := by
  cases fuel with
  | zero => simp [GetValidatorsInfoPerEpoch.loop]
  | succ fuel =>
    by_cases hstop : epoch = 0 ∨ cur ≤ epoch
    · rw [loop_stop rh epoch fuel (some m) rand cur hstop]
      simp
    · have h0 : epoch ≠ 0 := fun h => hstop (Or.inl h)
      have hlt : epoch < cur := by omega
      rcases GetMetaBlockByHash_cases rh (hexEncodeToString m.PrevEpochStartHash)
        with ⟨err, he⟩ | ⟨next, hn⟩
      · rw [loop_hop_error rh epoch fuel m rand cur err h0 hlt he]
        simp
      · rw [loop_hop rh epoch fuel m next rand cur h0 hlt hn]
        obtain ⟨h1, h2⟩ := loop_invariant rh epoch fuel next
        refine ⟨h1, ?_⟩
        intro r hr
        obtain ⟨last, hl, _⟩ := h2 none r hr
        simp at hl

/-- On a metablock, the closing statements always return. -/
theorem afterLoop_some_returns (rh : rawHeaderHandler) (m : MetaBlock) (rand : Bytes) :
    (GetValidatorsInfoPerEpoch.afterLoop rh (some m) rand).1 ≠ .nilDereference ∧
    (GetValidatorsInfoPerEpoch.afterLoop rh (some m) rand).1 ≠ .outOfFuel ∧
    ∀ v r, (GetValidatorsInfoPerEpoch.afterLoop rh (some m) rand).1 = .returned (v, r, none) →
      (getValidatorsInfo rh (some m)).1 = .returned (v, none) ∧ r = rand := by
  simp only [GetValidatorsInfoPerEpoch.afterLoop, getValidatorsInfo]
  generalize getValidatorsInfo.loop rh m.MiniBlockHeaders [] = x
  obtain ⟨⟨w, err⟩, tr⟩ := x
  cases err with
  | none =>
    refine ⟨by simp, by simp, ?_⟩
    intro v r h
    simp only [Outcome.returned.injEq, Prod.mk.injEq, and_true] at h
    exact ⟨by rw [h.1], h.2.symm⟩
  | some e => exact ⟨by simp, by simp, fun v r h => by simp at h⟩

/-- The anatomy of a run: either the first resolution fails and its error is
returned, or it yields a metablock M from which the loop runs; the loop runs out
of fuel, or ends with an error that is returned, or ends normally on a metablock
in step with the randomness, which is handed to the closing statements. -/
theorem GetValidatorsInfoPerEpoch_anatomy (rh : rawHeaderHandler) (fuel epoch : Nat) :
    (∃ err, (getLastStartOfEpochMetaBlock rh).1 = (none, some err) ∧
      (GetValidatorsInfoPerEpoch rh fuel epoch).1 = .returned ([], [], some err)) ∨
    (∃ M, (getLastStartOfEpochMetaBlock rh).1 = (some M, none) ∧
      (((GetValidatorsInfoPerEpoch.loop rh epoch fuel (some M) M.PrevRandSeed M.Epoch).1
          = .outOfFuel ∧
        (GetValidatorsInfoPerEpoch rh fuel epoch).1 = .outOfFuel) ∨
       (∃ err,
        (GetValidatorsInfoPerEpoch.loop rh epoch fuel (some M) M.PrevRandSeed M.Epoch).1
          = .returned (.error err) ∧
        (GetValidatorsInfoPerEpoch rh fuel epoch).1 = .returned ([], [], some err)) ∨
       (∃ last,
        (GetValidatorsInfoPerEpoch.loop rh epoch fuel (some M) M.PrevRandSeed M.Epoch).1
          = .returned (.ok (some last, last.PrevRandSeed)) ∧
        (epoch ≠ 0 → last.Epoch ≤ epoch) ∧
        (GetValidatorsInfoPerEpoch rh fuel epoch).1
          = (GetValidatorsInfoPerEpoch.afterLoop rh (some last) last.PrevRandSeed).1))) := by
  rcases getLastStartOfEpochMetaBlock_cases rh with ⟨err, he⟩ | ⟨M, hM⟩
  · left
    refine ⟨err, he, ?_⟩
    unfold GetValidatorsInfoPerEpoch
    generalize getLastStartOfEpochMetaBlock rh = x at he ⊢
    obtain ⟨r, tr⟩ := x
    simp only at he
    subst he
    rfl
  · right
    refine ⟨M, hM, ?_⟩
    obtain ⟨hnil, hok⟩ := loop_invariant rh epoch fuel M
    rcases hx : (GetValidatorsInfoPerEpoch.loop rh epoch fuel (some M) M.PrevRandSeed
      M.Epoch).1 with a | _ | _
    · cases a with
      | error err =>
        right; left
        refine ⟨err, rfl, ?_⟩
        rw [GetValidatorsInfoPerEpoch_of_loop_error rh fuel epoch (some M) err hM
          (by simpa [GetPrevRandSeed, GetEpoch] using hx)]
      | ok st =>
        obtain ⟨c, r⟩ := st
        obtain ⟨last, hc, hr, hle⟩ := hok c r hx
        subst hc hr
        right; right
        refine ⟨last, rfl, hle, ?_⟩
        rw [GetValidatorsInfoPerEpoch_of_loop rh fuel epoch (some M) (some last)
          last.PrevRandSeed hM (by simpa [GetPrevRandSeed, GetEpoch] using hx)]
    · exact absurd hx hnil
    · left
      refine ⟨rfl, ?_⟩
      unfold GetValidatorsInfoPerEpoch
      generalize getLastStartOfEpochMetaBlock rh = x at hM ⊢
      obtain ⟨r, tr⟩ := x
      simp only at hM
      subst hM
      simp only [GetPrevRandSeed, GetEpoch]
      generalize GetValidatorsInfoPerEpoch.loop rh epoch fuel (some M) M.PrevRandSeed
        M.Epoch = y at hx ⊢
      obtain ⟨o, tr2⟩ := y
      simp only at hx
      subst hx
      rfl

/-! ## C13: the metablock and the randomness stay in step -/

/-- C13: on every successful return of `GetValidatorsInfoPerEpoch`, the first
resolution gave a metablock M, the loop, started on M with M's `PrevRandSeed`,
ended normally on a metablock `last` with the randomness `last.PrevRandSeed`,
the returned list is the one `getValidatorsInfo` returns on `last`, and the
returned randomness is the `PrevRandSeed` of that same `last`. Every successful
hop replaces the three loop variables together, by the resolved predecessor, its
`PrevRandSeed` and its epoch, and whenever the loop, started in step, ends
normally, its metablock is not nil and its randomness is the `PrevRandSeed` of
that metablock. -/
theorem C13_randomness_in_step (rh : rawHeaderHandler) (fuel epoch : Nat)
    (v : List ShardValidatorInfo) (r : Bytes)
    (h : (GetValidatorsInfoPerEpoch rh fuel epoch).1 = .returned (v, r, none)) :
    (∃ M last, (getLastStartOfEpochMetaBlock rh).1 = (some M, none) ∧
      (GetValidatorsInfoPerEpoch.loop rh epoch fuel (some M) (GetPrevRandSeed (some M))
          (GetEpoch (some M))).1 = .returned (.ok (some last, last.PrevRandSeed)) ∧
      (getValidatorsInfo rh (some last)).1 = .returned (v, none) ∧
      r = last.PrevRandSeed) ∧
    (∀ f m next rand cur, epoch ≠ 0 → epoch < cur →
      (GetMetaBlockByHash rh (hexEncodeToString m.PrevEpochStartHash)).1 = (some next, none) →
      (GetValidatorsInfoPerEpoch.loop rh epoch (f + 1) (some m) rand cur).1
        = (GetValidatorsInfoPerEpoch.loop rh epoch f (some next) next.PrevRandSeed
            next.Epoch).1) ∧
    (∀ f m c r0,
      (GetValidatorsInfoPerEpoch.loop rh epoch f (some m) m.PrevRandSeed m.Epoch).1
        = .returned (.ok (c, r0)) →
      ∃ last, c = some last ∧ r0 = last.PrevRandSeed) := by
  refine ⟨?_, ?_, ?_⟩
  · rcases GetValidatorsInfoPerEpoch_anatomy rh fuel epoch with
      ⟨err, _, hr⟩ | ⟨M, hM, ⟨_, hr⟩ | ⟨err, _, hr⟩ | ⟨last, hl, _, hr⟩⟩
    · rw [hr] at h; simp at h
    · rw [hr] at h; simp at h
    · rw [hr] at h; simp at h
    · rw [hr] at h
      obtain ⟨hv, hrand⟩ := (afterLoop_some_returns rh last last.PrevRandSeed).2.2 v r h
      exact ⟨M, last, hM, hl, hv, hrand⟩
  · intro f m next rand cur h0 hlt hn
    rw [loop_hop rh epoch f m next rand cur h0 hlt hn]
  · intro f m c r0 hl
    obtain ⟨last, hc, hr, _⟩ := (loop_invariant rh epoch f m).2 c r0 hl
    exact ⟨last, hc, hr⟩

/-- C13, at the sample handler and the target epoch 3: the list and the
randomness both come from the epoch-3 metablock. -/
theorem C13_randomness_in_step_witness :
    (GetValidatorsInfoPerEpoch sampleHandler 3 3).1
      = .returned (validatorsBySpec sampleHandler (sampleChain 3), [3, 200], none) ∧
    ∃ M last, (getLastStartOfEpochMetaBlock sampleHandler).1 = (some M, none) ∧
      (GetValidatorsInfoPerEpoch.loop sampleHandler 3 3 (some M) (GetPrevRandSeed (some M))
          (GetEpoch (some M))).1 = .returned (.ok (some last, last.PrevRandSeed)) ∧
      (getValidatorsInfo sampleHandler (some last)).1
        = .returned (validatorsBySpec sampleHandler (sampleChain 3), none) ∧
      ([3, 200] : Bytes) = last.PrevRandSeed :=
  ⟨by decide,
   (C13_randomness_in_step sampleHandler 3 3 (validatorsBySpec sampleHandler (sampleChain 3))
      [3, 200] (by decide)).1⟩

/-! ## C17: the walk may stop below the target epoch -/

/-- C17: for every target epoch t with 0 < t (not above the epoch of the last
epoch-start metablock M, or above it), whenever `GetValidatorsInfoPerEpoch`
returns successfully, the metablock `last` whose validators and `PrevRandSeed` it returns
has an epoch that is at most t. That epoch need not be t: from any loop state
above t, a hop that lands on a metablock of epoch strictly below t ends the loop
on that metablock; in particular when the hop from M lands below t the operation
(t being below M's epoch) makes that one hop and returns what the closing statements return on the lower
metablock and its `PrevRandSeed`. -/
theorem C17_epoch_at_most_target (rh : rawHeaderHandler) (M : MetaBlock) (t : Nat)
    (hM : (getLastStartOfEpochMetaBlock rh).1 = (some M, none))
    (ht : 0 < t) :
    (∀ fuel v r, (GetValidatorsInfoPerEpoch rh fuel t).1 = .returned (v, r, none) →
      ∃ last,
        (GetValidatorsInfoPerEpoch.loop rh t fuel (some M) M.PrevRandSeed M.Epoch).1
          = .returned (.ok (some last, last.PrevRandSeed)) ∧
        (getValidatorsInfo rh (some last)).1 = .returned (v, none) ∧
        r = last.PrevRandSeed ∧ last.Epoch ≤ t) ∧
    (∀ f m next rand cur, t < cur →
      (GetMetaBlockByHash rh (hexEncodeToString m.PrevEpochStartHash)).1 = (some next, none) →
      next.Epoch < t →
      GetValidatorsInfoPerEpoch.loop rh t (f + 2) (some m) rand cur
        = (.returned (.ok (some next, next.PrevRandSeed)),
           (GetMetaBlockByHash rh (hexEncodeToString m.PrevEpochStartHash)).2)) ∧
    (∀ f next, t < M.Epoch →
      (GetMetaBlockByHash rh (hexEncodeToString M.PrevEpochStartHash)).1 = (some next, none) →
      next.Epoch < t →
      (GetValidatorsInfoPerEpoch rh (f + 2) t).1
        = (GetValidatorsInfoPerEpoch.afterLoop rh (some next) next.PrevRandSeed).1 ∧
      hops (GetValidatorsInfoPerEpoch rh (f + 2) t).2 = 1) := by
  have hstep : ∀ f m next rand cur, t < cur →
      (GetMetaBlockByHash rh (hexEncodeToString m.PrevEpochStartHash)).1 = (some next, none) →
      next.Epoch < t →
      GetValidatorsInfoPerEpoch.loop rh t (f + 2) (some m) rand cur
        = (.returned (.ok (some next, next.PrevRandSeed)),
           (GetMetaBlockByHash rh (hexEncodeToString m.PrevEpochStartHash)).2) := by
    intro f m next rand cur hlt hn hbelow
    rw [loop_hop rh t (f + 1) m next rand cur (by omega) hlt hn,
      loop_stop rh t f (some next) next.PrevRandSeed next.Epoch
        (Or.inr (Nat.le_of_lt hbelow))]
    simp
  refine ⟨?_, hstep, ?_⟩
  · intro fuel v r h
    rcases GetValidatorsInfoPerEpoch_anatomy rh fuel t with
      ⟨err, he, _⟩ | ⟨M2, hM2, ⟨_, hr⟩ | ⟨err, _, hr⟩ | ⟨last, hl, hle, hr⟩⟩
    · rw [hM] at he; simp at he
    · rw [hr] at h; simp at h
    · rw [hr] at h; simp at h
    · rw [hM] at hM2
      simp only [Prod.mk.injEq, Option.some.injEq, and_true] at hM2
      subst hM2
      rw [hr] at h
      obtain ⟨hv, hrand⟩ := (afterLoop_some_returns rh last last.PrevRandSeed).2.2 v r h
      exact ⟨last, hl, hv, hrand, hle (by omega)⟩
  · intro f next hlt hn hbelow
    have hl := hstep f M next M.PrevRandSeed M.Epoch hlt hn hbelow
    have hrun := GetValidatorsInfoPerEpoch_of_loop rh (f + 2) t (some M) (some next)
      next.PrevRandSeed hM (by simp [GetPrevRandSeed, GetEpoch, hl])
    simp only [GetPrevRandSeed, GetEpoch, hl] at hrun
    rw [hrun]
    refine ⟨rfl, ?_⟩
    simp only
    rw [hops_append, hops_append, getLastStartOfEpochMetaBlock_hops,
      GetMetaBlockByHash_hops, getValidatorsInfo_hops]

/-- C17, at the chain that skips the epochs 4 and 3: a request for epoch 3 hops
once, from the epoch-5 block to the epoch-2 block, and returns the (empty) list
and the `PrevRandSeed` of the epoch-2 block without error. -/
theorem C17_epoch_at_most_target_witness :
    (getLastStartOfEpochMetaBlock skippingHandler).1 = (some (sampleChain 5), none) ∧
    (GetValidatorsInfoPerEpoch skippingHandler 2 3).1 = .returned ([], [2, 200], none) ∧
    hops (GetValidatorsInfoPerEpoch skippingHandler 2 3).2 = 1 ∧
    ∃ last,
      (GetValidatorsInfoPerEpoch.loop skippingHandler 3 2 (some (sampleChain 5))
          (sampleChain 5).PrevRandSeed (sampleChain 5).Epoch).1
        = .returned (.ok (some last, last.PrevRandSeed)) ∧
      (getValidatorsInfo skippingHandler (some last)).1 = .returned ([], none) ∧
      ([2, 200] : Bytes) = last.PrevRandSeed ∧ last.Epoch ≤ 3 :=
  ⟨by decide, by decide,
   ((C17_epoch_at_most_target skippingHandler (sampleChain 5) 3 (by decide)
      (by decide)).2.2 0 (sampleChain 2) (by decide) (by decide) (by decide)).2,
   (C17_epoch_at_most_target skippingHandler (sampleChain 5) 3 (by decide)
      (by decide)).1 2 [] [2, 200] (by decide)⟩

/-! ## C18: no nil metablock -/

/-- C18: for every proxy and marshaller, `GetMetaBlockByHash` never returns a nil
block together with a nil error, and neither does
`getLastStartOfEpochMetaBlock`; so the loop of `GetValidatorsInfoPerEpoch`, run
from a metablock that is not nil, never takes a normal end on a nil metablock
(the `metaBlock == nil` stop) and never dereferences nil, and no run of
`GetValidatorsInfoPerEpoch`, whatever the fuel and the target epoch, ends in the
nil dereference that `getValidatorsInfo` makes on a nil metablock. -/
theorem C18_no_nil_metablock (rh : rawHeaderHandler) :
    (∀ hash, (GetMetaBlockByHash rh hash).1 ≠ (none, none)) ∧
    (getLastStartOfEpochMetaBlock rh).1 ≠ (none, none) ∧
    (∀ epoch fuel m rand cur,
      (GetValidatorsInfoPerEpoch.loop rh epoch fuel (some m) rand cur).1 ≠ .nilDereference ∧
      ∀ r, (GetValidatorsInfoPerEpoch.loop rh epoch fuel (some m) rand cur).1
        ≠ .returned (.ok (none, r))) ∧
    (∀ m, (getValidatorsInfo rh (some m)).1 ≠ .nilDereference) ∧
    (getValidatorsInfo rh none).1 = .nilDereference ∧
    (∀ fuel epoch, (GetValidatorsInfoPerEpoch rh fuel epoch).1 ≠ .nilDereference) := by
  refine ⟨?_, ?_, ?_, ?_, rfl, ?_⟩
  · intro hash
    rcases GetMetaBlockByHash_cases rh hash with ⟨err, he⟩ | ⟨m, hm⟩
    · rw [he]; simp
    · rw [hm]; simp
  · rcases getLastStartOfEpochMetaBlock_cases rh with ⟨err, he⟩ | ⟨m, hm⟩
    · rw [he]; simp
    · rw [hm]; simp
  · intro epoch fuel m rand cur
    exact loop_never_nil rh epoch fuel m rand cur
  · intro m
    simp [getValidatorsInfo]
  · intro fuel epoch
    rcases GetValidatorsInfoPerEpoch_anatomy rh fuel epoch with
      ⟨err, _, hr⟩ | ⟨M, _, ⟨_, hr⟩ | ⟨err, _, hr⟩ | ⟨last, _, _, hr⟩⟩
    · rw [hr]; simp
    · rw [hr]; simp
    · rw [hr]; simp
    · rw [hr]
      exact (afterLoop_some_returns rh last last.PrevRandSeed).1

/-! ## C12: termination of the walk -/

/-- The trace of a run whose first resolution succeeds: the calls of the first
resolution, those of the loop, then calls that are no hops. -/
theorem GetValidatorsInfoPerEpoch_trace (rh : rawHeaderHandler) (fuel epoch : Nat)
    (M : Option MetaBlock) (hM : (getLastStartOfEpochMetaBlock rh).1 = (M, none)) :
    ∃ extra : Trace,
      (GetValidatorsInfoPerEpoch rh fuel epoch).2
        = (getLastStartOfEpochMetaBlock rh).2 ++
          (GetValidatorsInfoPerEpoch.loop rh epoch fuel M (GetPrevRandSeed M) (GetEpoch M)).2 ++
          extra ∧
      hops extra = 0 ∧
      ((GetValidatorsInfoPerEpoch.loop rh epoch fuel M (GetPrevRandSeed M) (GetEpoch M)).1
          = .outOfFuel →
        (GetValidatorsInfoPerEpoch rh fuel epoch).1 = .outOfFuel) := by
  unfold GetValidatorsInfoPerEpoch
  generalize getLastStartOfEpochMetaBlock rh = x at hM ⊢
  obtain ⟨r, tr⟩ := x
  simp only at hM
  subst hM
  dsimp only
  generalize GetValidatorsInfoPerEpoch.loop rh epoch fuel M (GetPrevRandSeed M)
    (GetEpoch M) = y
  obtain ⟨o, tr2⟩ := y
  cases o with
  | outOfFuel => exact ⟨[], by simp, rfl, fun _ => rfl⟩
  | nilDereference => exact ⟨[], by simp, rfl, fun h => by simp at h⟩
  | returned a =>
    cases a with
    | error err => exact ⟨[], by simp, rfl, fun h => by simp at h⟩
    | ok st =>
      obtain ⟨c, rand⟩ := st
      exact ⟨(GetValidatorsInfoPerEpoch.afterLoop rh c rand).2, by simp,
        afterLoop_hops rh c rand, fun h => by simp at h⟩

/-- A run whose first resolution fails returns its error at once. -/
theorem GetValidatorsInfoPerEpoch_of_first_error (rh : rawHeaderHandler) (fuel epoch : Nat)
    (o : Option MetaBlock) (err : Error)
    (he : (getLastStartOfEpochMetaBlock rh).1 = (o, some err)) :
    GetValidatorsInfoPerEpoch rh fuel epoch
      = (.returned ([], [], some err), (getLastStartOfEpochMetaBlock rh).2) := by
  unfold GetValidatorsInfoPerEpoch
  generalize getLastStartOfEpochMetaBlock rh = x at he ⊢
  obtain ⟨r, tr⟩ := x
  simp only at he
  subst he
  rfl

theorem GetMetaBlockByHash_decodes (rh : rawHeaderHandler) (hash : String) (next : MetaBlock)
    (h : (GetMetaBlockByHash rh hash).1 = (some next, none)) : Decodes rh next := by
  unfold GetMetaBlockByHash at h
  cases h1 : rh.proxy.GetRawBlockByHash MetachainShardId hash with
  | error err => rw [h1] at h; simp at h
  | ok b =>
    rw [h1] at h
    dsimp only at h
    cases h2 : rh.marshaller.UnmarshalMetaBlock b with
    | error err => rw [h2] at h; simp at h
    | ok m =>
      rw [h2] at h
      simp only [Prod.mk.injEq, Option.some.injEq, and_true] at h
      exact ⟨b, by rw [h2, h]⟩

theorem getLastStartOfEpochMetaBlock_decodes (rh : rawHeaderHandler) (M : MetaBlock)
    (h : (getLastStartOfEpochMetaBlock rh).1 = (some M, none)) : Decodes rh M := by
  unfold getLastStartOfEpochMetaBlock at h
  cases h1 : rh.proxy.GetNonceAtEpochStart MetachainShardId with
  | error err => rw [h1] at h; simp at h
  | ok n =>
    rw [h1] at h
    dsimp only at h
    cases h2 : rh.proxy.GetRawBlockByNonce MetachainShardId (n % 2 ^ 64) with
    | error err => rw [h2] at h; simp at h
    | ok b =>
      rw [h2] at h
      dsimp only at h
      cases h3 : rh.marshaller.UnmarshalMetaBlock b with
      | error err => rw [h3] at h; simp at h
      | ok m =>
        rw [h3] at h
        simp only [Prod.mk.injEq, Option.some.injEq, and_true] at h
        exact ⟨b, by rw [h3, h]⟩

/-- When every successful hop lowers the epoch, the loop started on a decoded
metablock with more fuel than its epoch ends, after at most as many hops as
that epoch is above the target. -/
theorem loop_terminates (rh : rawHeaderHandler) (epoch : Nat) (hdec : HopsDecrease rh epoch) :
    ∀ fuel m, Decodes rh m → m.Epoch < fuel →
      (GetValidatorsInfoPerEpoch.loop rh epoch fuel (some m) m.PrevRandSeed m.Epoch).1
        ≠ .outOfFuel ∧
      hops (GetValidatorsInfoPerEpoch.loop rh epoch fuel (some m) m.PrevRandSeed m.Epoch).2
        ≤ m.Epoch - epoch := by
  intro fuel
  induction fuel with
  | zero => intro m _ hf; omega
  | succ fuel ih =>
    intro m hm hf
    by_cases hstop : epoch = 0 ∨ m.Epoch ≤ epoch
    · rw [loop_stop rh epoch fuel (some m) m.PrevRandSeed m.Epoch hstop]
      exact ⟨by simp, by simp [hops]⟩
    · have h0 : epoch ≠ 0 := fun h => hstop (Or.inl h)
      have hlt : epoch < m.Epoch := by omega
      rcases GetMetaBlockByHash_cases rh (hexEncodeToString m.PrevEpochStartHash)
        with ⟨err, he⟩ | ⟨next, hn⟩
      · rw [loop_hop_error rh epoch fuel m m.PrevRandSeed m.Epoch err h0 hlt he]
        refine ⟨by simp, ?_⟩
        simp only
        rw [GetMetaBlockByHash_hops]
        omega
      · rw [loop_hop rh epoch fuel m next m.PrevRandSeed m.Epoch h0 hlt hn]
        have hlow := hdec m next hm hlt hn
        obtain ⟨h1, h2⟩ := ih next (GetMetaBlockByHash_decodes rh _ next hn) (by omega)
        refine ⟨h1, ?_⟩
        simp only
        rw [hops_append, GetMetaBlockByHash_hops]
        omega

/-- On the cyclic chain the loop for the target epoch 3 uses up any fuel, with
one hop per unit. -/
theorem cyclic_loop (fuel : Nat) :
    (GetValidatorsInfoPerEpoch.loop cyclicHandler 3 fuel (some (sampleChain 5))
        (sampleChain 5).PrevRandSeed (sampleChain 5).Epoch).1 = .outOfFuel ∧
    hops (GetValidatorsInfoPerEpoch.loop cyclicHandler 3 fuel (some (sampleChain 5))
        (sampleChain 5).PrevRandSeed (sampleChain 5).Epoch).2 = fuel := by
  induction fuel with
  | zero => exact ⟨rfl, rfl⟩
  | succ fuel ih =>
    rw [loop_hop cyclicHandler 3 fuel (sampleChain 5) (sampleChain 5)
      (sampleChain 5).PrevRandSeed (sampleChain 5).Epoch (by decide) (by decide) (by decide)]
    refine ⟨ih.1, ?_⟩
    simp only
    rw [hops_append, GetMetaBlockByHash_hops, ih.2, Nat.add_comm]

/-- C12, as stated, fails: the cyclic sample proxy serves, for the predecessor
link of the last epoch-start metablock (epoch 5), that same metablock; the hop
succeeds without lowering the epoch, and a request for epoch 3 never ends:
whatever the fuel, the run uses it up, having made one hop per unit. -/
theorem C12_counterexample :
    (getLastStartOfEpochMetaBlock cyclicHandler).1 = (some (sampleChain 5), none) ∧
    (GetMetaBlockByHash cyclicHandler
      (hexEncodeToString (sampleChain 5).PrevEpochStartHash)).1
        = (some (sampleChain 5), none) ∧
    ∀ fuel, (GetValidatorsInfoPerEpoch cyclicHandler fuel 3).1 = .outOfFuel ∧
      hops (GetValidatorsInfoPerEpoch cyclicHandler fuel 3).2 = fuel := by
  refine ⟨by decide, by decide, ?_⟩
  intro fuel
  have hM : (getLastStartOfEpochMetaBlock cyclicHandler).1 = (some (sampleChain 5), none) := by
    decide
  obtain ⟨extra, htr, hex, hout⟩ :=
    GetValidatorsInfoPerEpoch_trace cyclicHandler fuel 3 (some (sampleChain 5)) hM
  have hl := cyclic_loop fuel
  simp only [GetPrevRandSeed, GetEpoch] at htr hout
  refine ⟨hout hl.1, ?_⟩
  rw [htr, hops_append, hops_append, getLastStartOfEpochMetaBlock_hops, hl.2, hex]
  omega

/-- C12 (amended): for every target epoch, and every proxy and marshaller with
which each successful hop from a decoded metablock above the target epoch lands
on a metablock of strictly lower epoch, `GetValidatorsInfoPerEpoch` terminates:
with more fuel than the epoch of the last epoch-start metablock the run does not
run out of fuel, and it makes at most as many hops as that epoch is above the
target epoch. An error of a hop ends the loop at once. -/
theorem C12_walk_terminates_when_hops_decrease (rh : rawHeaderHandler) (fuel epoch : Nat)
    (hdec : HopsDecrease rh epoch)
    (hf : GetEpoch (getLastStartOfEpochMetaBlock rh).1.1 < fuel) :
    (GetValidatorsInfoPerEpoch rh fuel epoch).1 ≠ .outOfFuel ∧
    hops (GetValidatorsInfoPerEpoch rh fuel epoch).2
      ≤ GetEpoch (getLastStartOfEpochMetaBlock rh).1.1 - epoch ∧
    (∀ f m rand cur err, epoch ≠ 0 → epoch < cur →
      (GetMetaBlockByHash rh (hexEncodeToString m.PrevEpochStartHash)).1 = (none, some err) →
      (GetValidatorsInfoPerEpoch.loop rh epoch (f + 1) (some m) rand cur).1
        = .returned (.error err)) := by
  refine ⟨?_, ?_, ?_⟩
  · rcases GetValidatorsInfoPerEpoch_anatomy rh fuel epoch with
      ⟨err, _, hr⟩ | ⟨M, hM, ⟨hl, _⟩ | ⟨err, _, hr⟩ | ⟨last, _, _, hr⟩⟩
    · rw [hr]; simp
    · rw [hM] at hf
      exact absurd hl (loop_terminates rh epoch hdec fuel M
        (getLastStartOfEpochMetaBlock_decodes rh M hM) hf).1
    · rw [hr]; simp
    · rw [hr]
      exact (afterLoop_some_returns rh last last.PrevRandSeed).2.1
  · rcases getLastStartOfEpochMetaBlock_cases rh with ⟨err, he⟩ | ⟨M, hM⟩
    · rw [GetValidatorsInfoPerEpoch_of_first_error rh fuel epoch none err he]
      simp only
      rw [getLastStartOfEpochMetaBlock_hops]
      omega
    · obtain ⟨extra, htr, hex, _⟩ :=
        GetValidatorsInfoPerEpoch_trace rh fuel epoch (some M) hM
      rw [hM] at hf ⊢
      simp only [GetPrevRandSeed, GetEpoch] at htr hf ⊢
      have hl := (loop_terminates rh epoch hdec fuel M
        (getLastStartOfEpochMetaBlock_decodes rh M hM) hf).2
      rw [htr, hops_append, hops_append, getLastStartOfEpochMetaBlock_hops, hex]
      omega
  · intro f m rand cur err h0 hlt he
    rw [loop_hop_error rh epoch f m rand cur err h0 hlt he]

/-- The metablocks the sample marshaller decodes are those of the sample chain,
for the epochs 0 to 5. -/
theorem sampleMarshaller_decodes (m : MetaBlock) (hm : Decodes sampleHandler m) :
    ∃ i, i ≤ 5 ∧ m = sampleChain i := by
  obtain ⟨buff, hb⟩ := hm
  match buff, hb with
  | [], hb => simp [sampleHandler, sampleMarshaller] at hb
  | [b], hb =>
    simp only [sampleHandler, sampleMarshaller] at hb
    by_cases hr : 100 ≤ b ∧ b ≤ 105
    · rw [if_pos hr] at hb
      simp only [Except.ok.injEq] at hb
      refine ⟨b - 100, by omega, ?_⟩
      rw [← hb]
      have h3 : (b = 103) = (b - 100 = 3) := by
        apply propext
        omega
      simp only [sampleChain, h3, MetaBlock.mk.injEq, true_and]
      have h4 : b - 101 = b - 100 - 1 := by omega
      rw [h4]
    · rw [if_neg hr] at hb
      simp at hb
  | _ :: _ :: _, hb => simp [sampleHandler, sampleMarshaller] at hb

/-- With the sample handler every successful hop from a decoded metablock of an
epoch above 0 lowers the epoch by one. -/
theorem sampleHandler_hops_decrease (epoch : Nat) : HopsDecrease sampleHandler epoch := by
  intro m next hm hlt hn
  obtain ⟨i, hi, rfl⟩ := sampleMarshaller_decodes m hm
  have hpos : 0 < i := by
    have : (sampleChain i).Epoch = i := rfl
    omega
  have hi2 : i = 1 ∨ i = 2 ∨ i = 3 ∨ i = 4 ∨ i = 5 := by omega
  have hlinks : ∀ j, j < 5 →
      (GetMetaBlockByHash sampleHandler
        (hexEncodeToString (sampleChain (j + 1)).PrevEpochStartHash)).1
        = (some (sampleChain j), none) := by decide
  obtain ⟨j, rfl⟩ : ∃ j, i = j + 1 := ⟨i - 1, by omega⟩
  rw [hlinks j (by omega)] at hn
  simp only [Prod.mk.injEq, Option.some.injEq, and_true] at hn
  rw [← hn]
  show j < j + 1
  omega

/-- C12 (amended), at the sample handler: a request for epoch 1, with fuel 6,
ends after at most 5 - 1 hops. -/
theorem C12_walk_terminates_when_hops_decrease_witness :
    GetEpoch (getLastStartOfEpochMetaBlock sampleHandler).1.1 = 5 ∧
    (GetValidatorsInfoPerEpoch sampleHandler 6 1).1 ≠ .outOfFuel ∧
    hops (GetValidatorsInfoPerEpoch sampleHandler 6 1).2
      ≤ GetEpoch (getLastStartOfEpochMetaBlock sampleHandler).1.1 - 1 :=
  ⟨by decide,
   (C12_walk_terminates_when_hops_decrease sampleHandler 6 1
      (sampleHandler_hops_decrease 1) (by decide)).1,
   (C12_walk_terminates_when_hops_decrease sampleHandler 6 1
      (sampleHandler_hops_decrease 1) (by decide)).2.1⟩

/-! ## C15: the hash handed to a hop -/

theorem GetMetaBlockByHash_trace (rh : rawHeaderHandler) (hash : String) :
    (GetMetaBlockByHash rh hash).2
      = Event.GetRawBlockByHash MetachainShardId hash ::
        (match rh.proxy.GetRawBlockByHash MetachainShardId hash with
          | .error _ => []
          | .ok served => [Event.UnmarshalMetaBlock served]) := by
  unfold GetMetaBlockByHash
  cases h1 : rh.proxy.GetRawBlockByHash MetachainShardId hash with
  | error err => rfl
  | ok b =>
    dsimp only
    cases h2 : rh.marshaller.UnmarshalMetaBlock b <;> rfl

/-- The only fetch in the trace of `GetMetaBlockByHash` is that of its hash, on
the metachain shard. -/
theorem GetMetaBlockByHash_fetch_mem (rh : rawHeaderHandler) (hash : String)
    (s : Nat) (h : String)
    (hmem : Event.GetRawBlockByHash s h ∈ (GetMetaBlockByHash rh hash).2) :
    s = MetachainShardId ∧ h = hash := by
  rw [GetMetaBlockByHash_trace] at hmem
  cases h1 : rh.proxy.GetRawBlockByHash MetachainShardId hash with
  | error err => rw [h1] at hmem; simpa using hmem
  | ok b => rw [h1] at hmem; simpa using hmem

/-- A metablock resolved by `GetMetaBlockByHash` was decoded from bytes whose
decoding is in the trace. -/
theorem GetMetaBlockByHash_decode_mem (rh : rawHeaderHandler) (hash : String)
    (next : MetaBlock) (h : (GetMetaBlockByHash rh hash).1 = (some next, none)) :
    ∃ buff, Event.UnmarshalMetaBlock buff ∈ (GetMetaBlockByHash rh hash).2 ∧
      rh.marshaller.UnmarshalMetaBlock buff = .ok next := by
  rw [GetMetaBlockByHash_trace]
  unfold GetMetaBlockByHash at h
  cases h1 : rh.proxy.GetRawBlockByHash MetachainShardId hash with
  | error err => rw [h1] at h; simp at h
  | ok b =>
    rw [h1] at h
    dsimp only at h ⊢
    cases h2 : rh.marshaller.UnmarshalMetaBlock b with
    | error err => rw [h2] at h; simp at h
    | ok m =>
      rw [h2] at h
      simp only [Prod.mk.injEq, Option.some.injEq, and_true] at h
      exact ⟨b, by simp, by rw [h2, h]⟩

theorem getLastStartOfEpochMetaBlock_decode_mem (rh : rawHeaderHandler) (M : MetaBlock)
    (h : (getLastStartOfEpochMetaBlock rh).1 = (some M, none)) :
    ∃ buff, Event.UnmarshalMetaBlock buff ∈ (getLastStartOfEpochMetaBlock rh).2 ∧
      rh.marshaller.UnmarshalMetaBlock buff = .ok M := by
  unfold getLastStartOfEpochMetaBlock at h ⊢
  cases h1 : rh.proxy.GetNonceAtEpochStart MetachainShardId with
  | error err => rw [h1] at h; simp at h
  | ok n =>
    rw [h1] at h
    dsimp only at h ⊢
    cases h2 : rh.proxy.GetRawBlockByNonce MetachainShardId (n % 2 ^ 64) with
    | error err => rw [h2] at h; simp at h
    | ok b =>
      rw [h2] at h
      dsimp only at h ⊢
      cases h3 : rh.marshaller.UnmarshalMetaBlock b with
      | error err => rw [h3] at h; simp at h
      | ok m =>
        rw [h3] at h
        simp only [Prod.mk.injEq, Option.some.injEq, and_true] at h
        exact ⟨b, by simp, by rw [h3, h]⟩

/-- A trace without hops holds no block fetch by hash. -/
theorem not_mem_of_hops_zero (tr : Trace) (h0 : hops tr = 0) (s : Nat) (h : String) :
    Event.GetRawBlockByHash s h ∉ tr := by
  intro hmem
  have : 0 < hops tr := by
    unfold hops
    exact List.countP_pos_iff.mpr ⟨_, hmem, rfl⟩
  omega

/-- Every block fetch of the loop is on the metachain shard, for the hex
encoding of the stored predecessor hash of the metablock the loop is on: the
one it started from, or one decoded during the loop. -/
theorem loop_fetch_mem (rh : rawHeaderHandler) (epoch : Nat) :
    ∀ fuel m rand cur s h,
      Event.GetRawBlockByHash s h
        ∈ (GetValidatorsInfoPerEpoch.loop rh epoch fuel (some m) rand cur).2 →
      s = MetachainShardId ∧
      (h = hexEncodeToString m.PrevEpochStartHash ∨
        ∃ buff m2, Event.UnmarshalMetaBlock buff
            ∈ (GetValidatorsInfoPerEpoch.loop rh epoch fuel (some m) rand cur).2 ∧
          rh.marshaller.UnmarshalMetaBlock buff = .ok m2 ∧
          h = hexEncodeToString m2.PrevEpochStartHash) := by
  intro fuel
  induction fuel with
  | zero =>
    intro m rand cur s h hmem
    simp [GetValidatorsInfoPerEpoch.loop] at hmem
  | succ fuel ih =>
    intro m rand cur s h hmem
    by_cases hstop : epoch = 0 ∨ cur ≤ epoch
    · rw [loop_stop rh epoch fuel (some m) rand cur hstop] at hmem
      simp at hmem
    · have h0 : epoch ≠ 0 := fun h => hstop (Or.inl h)
      have hlt : epoch < cur := by omega
      rcases GetMetaBlockByHash_cases rh (hexEncodeToString m.PrevEpochStartHash)
        with ⟨err, he⟩ | ⟨next, hn⟩
      · rw [loop_hop_error rh epoch fuel m rand cur err h0 hlt he] at hmem
        obtain ⟨hs, hh⟩ := GetMetaBlockByHash_fetch_mem rh _ s h hmem
        exact ⟨hs, Or.inl hh⟩
      · rw [loop_hop rh epoch fuel m next rand cur h0 hlt hn] at hmem ⊢
        rcases List.mem_append.mp hmem with h1 | h1
        · obtain ⟨hs, hh⟩ := GetMetaBlockByHash_fetch_mem rh _ s h h1
          exact ⟨hs, Or.inl hh⟩
        · obtain ⟨hs, hh⟩ := ih next next.PrevRandSeed next.Epoch s h h1
          refine ⟨hs, Or.inr ?_⟩
          rcases hh with hh | ⟨buff, m2, hb, hd, hh⟩
          · obtain ⟨buff, hb, hd⟩ := GetMetaBlockByHash_decode_mem rh _ next hn
            exact ⟨buff, next, List.mem_append.mpr (Or.inl hb), hd, hh⟩
          · exact ⟨buff, m2, List.mem_append.mpr (Or.inr hb), hd, hh⟩

theorem hexValue_hexDigit (n : Nat) : hexValue (hexDigit n) = some (n % 16) := by
  have h : n % 16 < 16 := Nat.mod_lt _ (by decide)
  unfold hexDigit
  generalize n % 16 = k at h ⊢
  interval_cases k <;> rfl

/-- Decoding inverts encoding: `hex.DecodeString` of `hex.EncodeToString` of
some bytes gives the bytes back. -/
theorem hexDecodeString_hexEncodeToString (src : Bytes) :
    hexDecodeString (hexEncodeToString src) = some (src.map fun b => b % 256) := by
  unfold hexDecodeString hexEncodeToString
  simp only
  induction src with
  | nil => rfl
  | cons b rest ih =>
    simp only [List.flatMap_cons, List.cons_append, List.nil_append, List.map_cons]
    unfold hexDecodeChars
    rw [hexValue_hexDigit, hexValue_hexDigit, ih]
    simp only [Option.some.injEq, List.cons.injEq, and_true]
    omega

/-- C15, as stated, fails: the code does not decode the stored predecessor hash,
it encodes it. On a metablock whose stored `PrevEpochStartHash` is the bytes
`[48, 52]` (the text `04`), decoding that hex text gives the byte `[4]`, while the
hop requests the hash `3034`, the hex encoding of the two stored bytes. -/
theorem C15_counterexample :
    hexTextMetaBlock.PrevEpochStartHash = [48, 52] ∧
    (GetValidatorsInfoPerEpoch.loop sampleHandler 1 1 (some hexTextMetaBlock)
        hexTextMetaBlock.PrevRandSeed hexTextMetaBlock.Epoch).2
      = [Event.GetRawBlockByHash MetachainShardId "3034"] ∧
    hexDecodeString (bytesToString hexTextMetaBlock.PrevEpochStartHash) = some [4] ∧
    "3034" ≠ bytesToString [4] ∧
    hexEncodeToString hexTextMetaBlock.PrevEpochStartHash = "3034" := by
  decide

/-- C15 (amended): at every backward hop of `GetValidatorsInfoPerEpoch`, the hash
handed to `GetMetaBlockByHash` is the hex encoding (`hex.EncodeToString`) of the
predecessor hash bytes stored in the current metablock
(`EpochStart.Economics.PrevEpochStartHash`). In any loop state that makes a hop,
the first call is the fetch, on the metachain shard, of that encoding; and every
block fetch by hash of a whole run is on the metachain shard, for the hex
encoding of the stored predecessor hash of a metablock decoded in the run, so
that decoding the requested hash gives the stored bytes back. -/
theorem C15_hop_hash_is_hex_encoding (rh : rawHeaderHandler) (fuel epoch : Nat) :
    (∀ f m rand cur, epoch ≠ 0 → epoch < cur →
      (GetValidatorsInfoPerEpoch.loop rh epoch (f + 1) (some m) rand cur).2.head?
        = some (Event.GetRawBlockByHash MetachainShardId
            (hexEncodeToString m.PrevEpochStartHash))) ∧
    (∀ s h, Event.GetRawBlockByHash s h ∈ (GetValidatorsInfoPerEpoch rh fuel epoch).2 →
      s = MetachainShardId ∧
      ∃ buff m, Event.UnmarshalMetaBlock buff ∈ (GetValidatorsInfoPerEpoch rh fuel epoch).2 ∧
        rh.marshaller.UnmarshalMetaBlock buff = .ok m ∧
        h = hexEncodeToString m.PrevEpochStartHash ∧
        hexDecodeString h = some (m.PrevEpochStartHash.map fun b => b % 256)) := by
  constructor
  · intro f m rand cur h0 hlt
    rcases GetMetaBlockByHash_cases rh (hexEncodeToString m.PrevEpochStartHash)
      with ⟨err, he⟩ | ⟨next, hn⟩
    · rw [loop_hop_error rh epoch f m rand cur err h0 hlt he, GetMetaBlockByHash_trace]
      rfl
    · rw [loop_hop rh epoch f m next rand cur h0 hlt hn, GetMetaBlockByHash_trace]
      rfl
  · intro s h hmem
    rcases getLastStartOfEpochMetaBlock_cases rh with ⟨err, he⟩ | ⟨M, hM⟩
    · rw [GetValidatorsInfoPerEpoch_of_first_error rh fuel epoch none err he] at hmem
      exact absurd hmem
        (not_mem_of_hops_zero _ (getLastStartOfEpochMetaBlock_hops rh) s h)
    · obtain ⟨extra, htr, hex, _⟩ :=
        GetValidatorsInfoPerEpoch_trace rh fuel epoch (some M) hM
      simp only [GetPrevRandSeed, GetEpoch] at htr
      rw [htr] at hmem ⊢
      have hloop : Event.GetRawBlockByHash s h
          ∈ (GetValidatorsInfoPerEpoch.loop rh epoch fuel (some M) M.PrevRandSeed
              M.Epoch).2 := by
        rcases List.mem_append.mp hmem with h1 | h1
        · rcases List.mem_append.mp h1 with h2 | h2
          · exact absurd h2
              (not_mem_of_hops_zero _ (getLastStartOfEpochMetaBlock_hops rh) s h)
          · exact h2
        · exact absurd h1 (not_mem_of_hops_zero _ hex s h)
      obtain ⟨hs, hh⟩ := loop_fetch_mem rh epoch fuel M M.PrevRandSeed M.Epoch s h hloop
      refine ⟨hs, ?_⟩
      rcases hh with hh | ⟨buff, m2, hb, hd, hh⟩
      · obtain ⟨buff, hb, hd⟩ := getLastStartOfEpochMetaBlock_decode_mem rh M hM
        refine ⟨buff, M, ?_, hd, hh, ?_⟩
        · exact List.mem_append.mpr (Or.inl (List.mem_append.mpr (Or.inl hb)))
        · rw [hh, hexDecodeString_hexEncodeToString]
      · refine ⟨buff, m2, ?_, hd, hh, ?_⟩
        · exact List.mem_append.mpr (Or.inl (List.mem_append.mpr (Or.inr hb)))
        · rw [hh, hexDecodeString_hexEncodeToString]

/-- C15 (amended), at the sample handler and the target epoch 3: the first hop
requests `04`, the encoding of the hash `[4]` stored in the epoch-5 metablock,
which was decoded from the bytes `[105]`. -/
theorem C15_hop_hash_is_hex_encoding_witness :
    Event.GetRawBlockByHash MetachainShardId "04"
      ∈ (GetValidatorsInfoPerEpoch sampleHandler 3 3).2 ∧
    (sampleChain 5).PrevEpochStartHash = [4] ∧
    hexEncodeToString [4] = "04" ∧
    ∃ buff m, Event.UnmarshalMetaBlock buff ∈ (GetValidatorsInfoPerEpoch sampleHandler 3 3).2 ∧
      sampleHandler.marshaller.UnmarshalMetaBlock buff = .ok m ∧
      "04" = hexEncodeToString m.PrevEpochStartHash ∧
      hexDecodeString "04" = some (m.PrevEpochStartHash.map fun b => b % 256) :=
  ⟨by decide, by decide, by decide,
   ((C15_hop_hash_is_hex_encoding sampleHandler 3 3).2 MetachainShardId "04"
      (by decide)).2⟩

end headerCheck
